import Mathlib

/-!
# Tag groups of yor: skip patterns, registration and tagging of a block

A shallow embedding of `src/common/tagging/tag_group.go`.

* Go strings are Lean strings, that is sequences of characters (a key that is
  not UTF-8 is outside the model); a `[]tags.ITag` is a list, a nil interface
  value is `none`, an `error` is an optional message.
* `tags.ITag` and `structure.IBlock` are interfaces of other packages; their
  methods are taken as parameters (`ITag`, `IBlock`).
* `regexp.Match` belongs to the Go standard library.  The package is a
  parameter (`Regexp`); `goRegexp` fixes it on the part of the syntax that the
  statements below speak about and leaves every other pattern to a parameter.
* Calls that matter to a caller (`CalculateValue`, `logger.Error`,
  `AddNewTags`) are recorded, in order, in a list of `Call`s.
-/

namespace Yor

/-! ## Package `strings` -/

/-- Go `strings.ReplaceAll(s, old, new)` for a one-character `old`, on the
characters of `s`: every occurrence of `old` is replaced by `new`. -/
def strings.replaceChars (old : Char) (new : List Char) : List Char → List Char
  | [] => []
  | c :: cs => (if c = old then new else [c]) ++ strings.replaceChars old new cs

/-- Go `strings.ReplaceAll(s, old, new)` for a one-character `old` (the tag
group calls it with `old = "*"`). -/
def strings.ReplaceAll (s : String) (old : Char) (new : String) : String :=
  String.mk (strings.replaceChars old new.data s.data)

/-! ## Package `regexp` -/

/-- The part of Go package `regexp` that the tag group uses.  `Compile pattern`
is either an error or the compiled expression, which is represented by its
method `Match`: whether the input contains any match of the expression. -/
structure Regexp where
  /-- Go `regexp.Compile`. -/
  Compile : String → Except String (String → Bool)

/-- Go `regexp.Match(pattern, b)`: compile the pattern; on an error return
`(false, err)`, otherwise `(re.Match(b), nil)`. -/
def regexp.Match (R : Regexp) (pattern : String) (b : String) : Bool × Option String :=
  match R.Compile pattern with
  | .error e => (false, some e)
  | .ok re => (re b, none)

/-- One character position of a parsed expression: a literal character or `.`,
which in Go matches every character except the line feed. -/
inductive Atom where
  | lit (c : Char)
  | anyCharNotNL
  deriving DecidableEq, Repr

/-- An atom, possibly under the repetition operator `*`. -/
structure Item where
  atom : Atom
  star : Bool
  deriving DecidableEq, Repr

/-- The characters with a special meaning in Go regular expressions (the set of
`regexp.QuoteMeta`). -/
def specialChars : List Char := "\\.+*?()|[]\x7b\x7d^$".data

/-- Go `syntax.Parse`, left to right with the stack of parsed items in `acc`
(top first), on the modelled syntax: literal characters, `.`, and `*` after an
item.  A `*` with nothing before it and a `*` right after a `*` are the parse
errors of Go, as is a `[` with no `]` after it.  `none`: the pattern uses
syntax that is not modelled here.  The limit that later versions of Go put on
the size of an expression is not modelled. -/
def parseItems : List Char → List Item → Option (Except String (List Item))
  | [], acc => some (.ok acc.reverse)
  | c :: cs, acc =>
    if c = '*' then
      match acc with
      | [] => some (.error "missing argument to repetition operator: *")
      | it :: acc' =>
        if it.star then some (.error "invalid nested repetition operator: **")
        else parseItems cs (⟨it.atom, true⟩ :: acc')
    else if c = '.' then parseItems cs (⟨Atom.anyCharNotNL, false⟩ :: acc)
    else if c = '[' then
      (if ']' ∈ cs then none else some (.error "missing closing ]"))
    else if c ∈ specialChars then none
    else parseItems cs (⟨Atom.lit c, false⟩ :: acc)

/-- Whether one input character is matched by an atom. -/
def Atom.accepts : Atom → Char → Bool
  | .lit c, d => c == d
  | .anyCharNotNL, d => d != '\n'

/-- The repetition `a*` followed by the continuation `k`: `k` matches here, or
`a` takes one character and the repetition goes on. -/
def matchStar (a : Atom) (k : List Char → Bool) : List Char → Bool
  | [] => k []
  | c :: cs => k (c :: cs) || (a.accepts c && matchStar a k cs)

/-- Whether the items match some prefix of the input (a match that starts at
the first character). -/
def matchHere : List Item → List Char → Bool
  | [] => fun _ => true
  | it :: its =>
    if it.star then matchStar it.atom (matchHere its)
    else fun s =>
      match s with
      | [] => false
      | c :: cs => it.atom.accepts c && matchHere its cs

/-- Go `(*Regexp).Match`: whether the input contains any match, that is
whether a match starts at some position of the input. -/
def matchAnywhere (its : List Item) : List Char → Bool
  | [] => matchHere its []
  | c :: cs => matchHere its (c :: cs) || matchAnywhere its cs

/-- Go `regexp.Compile` on the modelled syntax; `none` outside it. -/
def compileItems (pattern : String) : Option (Except String (String → Bool)) :=
  match parseItems pattern.data [] with
  | none => none
  | some (.error e) => some (.error ("error parsing regexp: " ++ e))
  | some (.ok its) => some (.ok (fun b => matchAnywhere its b.data))

/-- Go package `regexp`: the modelled syntax is compiled by `compileItems`,
every other pattern is left to `rest`. -/
def goRegexp (rest : Regexp) : Regexp :=
  ⟨fun pattern =>
    match compileItems pattern with
    | some r => r
    | none => rest.Compile pattern⟩

/-- A stand-in for the patterns outside the modelled syntax, used where a
closed example needs a complete package: it rejects them. -/
def Regexp.unmodelled : Regexp :=
  ⟨fun _ => .error "syntax outside the model"⟩

/-! ## Package `tags` and package `structure` -/

/-- The methods of interface `tags.ITag` over a carrier `T` of tag objects and
a type `D` of context data.  `Init` yields the tag after initialisation;
`CalculateValue` returns the pair `(ITag, error)` of Go, either of which may be
nil. -/
structure ITag (T D : Type) where
  Init : T → T
  GetKey : T → String
  GetValue : T → String
  CalculateValue : T → D → Option T × Option String

/-- The methods of interface `structure.IBlock` that the tag group calls, over
a carrier `B` of blocks. -/
structure IBlock (B T : Type) where
  GetResourceID : B → String
  AddNewTags : B → List (Option T) → B

/-! ## `tag_group.go` -/

/-- Go `type TagGroup struct`. -/
structure TagGroup (T : Type) where
  tags : List T
  SkippedTags : List String

/-- Go `(*TagGroup).GetTags`. -/
def TagGroup.GetTags {T : Type} (t : TagGroup T) : List T :=
  t.tags

/-- The loop of `IsTagSkipped` over the skip patterns: the first pattern whose
translation matches the key, or does not compile, ends it with `true`. -/
def IsTagSkipped.loop (R : Regexp) (key : String) : List String → Bool
  | [] => false
  | st :: sts =>
    let stRegex := strings.ReplaceAll st '*' ".*"
    let r := regexp.Match R stRegex key
    if r.1 || r.2.isSome then true else IsTagSkipped.loop R key sts

/-- Go `(*TagGroup).IsTagSkipped` (the value returned; the notice written with
`logger.Info` is left out). -/
def TagGroup.IsTagSkipped {T D : Type} (R : Regexp) (I : ITag T D) (t : TagGroup T)
    (tag : T) : Bool :=
  IsTagSkipped.loop R (I.GetKey tag) t.SkippedTags

/-- Go `(*TagGroup).SetTags`: every tag is initialised and then appended to the
registered tags unless it is skipped. -/
def TagGroup.SetTags {T D : Type} (R : Regexp) (I : ITag T D) (t : TagGroup T) :
    List T → TagGroup T
  | [] => t
  | tag :: rest =>
    let tag := I.Init tag
    let t := if !t.IsTagSkipped R I tag then ⟨t.tags ++ [tag], t.SkippedTags⟩ else t
    TagGroup.SetTags R I t rest

/-- The calls made by `UpdateBlockTags` that reach outside the tag group. -/
inductive Call (T : Type) where
  | CalculateValue (tag : T)
  | Error (msg : String)
  | AddNewTags (newTags : List (Option T))

/-- The local variables of `UpdateBlockTags` and the calls made so far. -/
structure UpdateState (T : Type) where
  newTags : List (Option T)
  err : Option String
  calls : List (Call T)

/-- One round of the loop of `UpdateBlockTags`. -/
def UpdateBlockTags.step {T D B : Type} (I : ITag T D) (J : IBlock B T) (block : B)
    (data : D) (s : UpdateState T) (tag : T) : UpdateState T :=
  let r := I.CalculateValue tag data
  let tagVal := r.1
  let err := r.2
  let calls := s.calls ++ [Call.CalculateValue tag]
  let calls :=
    if err.isSome then
      calls ++ [Call.Error ("Failed to create " ++ I.GetKey tag ++ " tag for block "
        ++ J.GetResourceID block)]
    else calls
  ⟨s.newTags ++ [tagVal], err, calls⟩

/-- What `UpdateBlockTags` leaves behind: the block after `AddNewTags`, the
error returned, and the calls made. -/
structure UpdateResult (B T : Type) where
  block : B
  err : Option String
  calls : List (Call T)

/-- Go `(*TagGroup).UpdateBlockTags`. -/
def TagGroup.UpdateBlockTags {T D B : Type} (I : ITag T D) (J : IBlock B T)
    (t : TagGroup T) (block : B) (data : D) : UpdateResult B T :=
  let s := t.GetTags.foldl (UpdateBlockTags.step I J block data) ⟨[], none, []⟩
  ⟨J.AddNewTags block s.newTags, s.err, s.calls ++ [Call.AddNewTags s.newTags]⟩

/-- The list that a run handed to `block.AddNewTags`, read off the calls. -/
def addedTags {T : Type} : List (Call T) → List (List (Option T))
  | [] => []
  | Call.AddNewTags l :: cs => l :: addedTags cs
  | _ :: cs => addedTags cs

/-- The tags on which a run called `CalculateValue`, in order of the calls. -/
def calculated {T : Type} : List (Call T) → List T
  | [] => []
  | Call.CalculateValue t :: cs => t :: calculated cs
  | _ :: cs => calculated cs

/-! ## Concrete tags and blocks for the examples -/

/-- Tag objects for the concrete inputs of the examples: `plain` is a
`tags.Tag` with its key and value, `failing` a tag whose calculation fails
with a message. -/
inductive SampleTag where
  | plain (key value : String)
  | failing (key msg : String)
  deriving DecidableEq, Repr

/-- The key of a sample tag. -/
def SampleTag.key : SampleTag → String
  | .plain k _ => k
  | .failing k _ => k

/-- The value of a sample tag. -/
def SampleTag.value : SampleTag → String
  | .plain _ v => v
  | .failing _ _ => ""

/-- Modelled from the spec: the methods of the tags of package `tags`, whose
source is missing.  A plain tag (`tags.Tag`, as built by the test
with `Key: "new_tag", Value: "new_value"`) needs no initialisation and its
calculation yields the tag itself without an error; a failing calculation
yields a nil tag and an error. -/
def SampleTag.methods (D : Type) : ITag SampleTag D :=
  ⟨id, SampleTag.key, SampleTag.value, fun t _ =>
    match t with
    | .plain k v => (some (.plain k v), none)
    | .failing _ msg => (none, some msg)⟩

/-- Modelled from the spec: a tag implementation that the interface `ITag`
admits (package `tags`, whose source is missing) and whose calculation returns
the value of the tag under the key `foo_bar`, whatever the key of the tag. -/
def SampleTag.underFooBar (D : Type) : ITag SampleTag D :=
  ⟨id, SampleTag.key, SampleTag.value, fun t _ => (some (.plain "foo_bar" t.value), none)⟩

/-- Modelled from the spec: a Block owns a resource identifier, its line span,
its existing tags and the pending set of computed tags. -/
structure Block where
  ResourceID : String
  Lines : Nat × Nat
  ExistingTags : List SampleTag
  NewTags : List (Option SampleTag)
  deriving DecidableEq, Repr

/-- Modelled from the spec: `GetResourceID` and `AddNewTags` of a Block;
`AddNewTags` collects the tags handed over into the pending set. -/
def Block.methods : IBlock Block SampleTag :=
  ⟨Block.ResourceID, fun b l => ⟨b.ResourceID, b.Lines, b.ExistingTags, b.NewTags ++ l⟩⟩

/-- The block of resource `NewVolume` of `ebs.yaml`: lines 3 to 13, existing
tag `MyTag=TagValue`. -/
def newVolumeBlock : Block :=
  ⟨"NewVolume", (3, 13), [.plain "MyTag" "TagValue"], []⟩

/-! ## Notions that the statements use -/

/-- A calculator returns its tag under its own key. -/
def ITag.KeepsKey {T D : Type} (I : ITag T D) : Prop :=
  ∀ t d v, (I.CalculateValue t d).1 = some v → I.GetKey v = I.GetKey t

/-- A skip pattern built from literal characters and `*`: no character of it
other than `*` has a special meaning in a regular expression. -/
def LiteralOrStar (pattern : String) : Prop :=
  ∀ c ∈ pattern.data, c = '*' ∨ c ∉ specialChars

instance (pattern : String) : Decidable (LiteralOrStar pattern) := by
  unfold LiteralOrStar
  infer_instance

/-- The glob of the specification, as a relation between a pattern and a text:
a literal character stands for itself and `*` stands for any substring whose
characters are all `allowed`. -/
inductive Glob (allowed : Char → Prop) : List Char → List Char → Prop where
  | nil : Glob allowed [] []
  | lit {c : Char} {p s : List Char} : c ≠ '*' → Glob allowed p s →
      Glob allowed (c :: p) (c :: s)
  | star {w p s : List Char} : (∀ c ∈ w, allowed c) → Glob allowed p s →
      Glob allowed ('*' :: p) (w ++ s)

/-- The item that the translated pattern has for a character of a skip
pattern: `.*` for `*`, the character itself otherwise. -/
def itemOfChar (c : Char) : Item :=
  if c = '*' then ⟨Atom.anyCharNotNL, true⟩ else ⟨Atom.lit c, false⟩

/-- A tag group as registration builds it: no tags at first, the skip list
`S` set, then any number of calls of `SetTags`. -/
def registered {T D : Type} (R : Regexp) (I : ITag T D) (S : List String)
    (tss : List (List T)) : TagGroup T :=
  tss.foldl (TagGroup.SetTags R I) ⟨[], S⟩

/-! ## The methods as steps on the memory they can reach -/

/-- The memory that the methods of `*TagGroup` can reach: the two fields of
the receiver `t`, the block that is being tagged, and the calls made so far. -/
structure Store (T B : Type) where
  tags : List T
  SkippedTags : List String
  block : B
  calls : List (Call T)

/-- The receiver `t` as the store holds it. -/
def Store.group {T B : Type} (s : Store T B) : TagGroup T :=
  ⟨s.tags, s.SkippedTags⟩

/-- Go `(*TagGroup).GetTags` on the store: `return t.tags`. -/
def GetTags.exec {T B : Type} (s : Store T B) : Store T B × List T :=
  (s, s.tags)

/-- The loop of `IsTagSkipped` on the store, over what is left of
`t.SkippedTags`: the rounds assign the local variables `stRegex`, `match` and
`err` only. -/
def IsTagSkipped.execLoop {T B : Type} (R : Regexp) (key : String) :
    List String → Store T B → Store T B × Bool
  | [], s => (s, false)
  | st :: sts, s =>
    let stRegex := strings.ReplaceAll st '*' ".*"
    let r := regexp.Match R stRegex key
    if r.1 || r.2.isSome then (s, true) else IsTagSkipped.execLoop R key sts s

/-- Go `(*TagGroup).IsTagSkipped` on the store: the store after the call and
the value returned (the notice written with `logger.Info` is left out, as in
`IsTagSkipped`). -/
def IsTagSkipped.exec {T D B : Type} (R : Regexp) (I : ITag T D) (s : Store T B)
    (tag : T) : Store T B × Bool :=
  IsTagSkipped.execLoop R (I.GetKey tag) s.SkippedTags s

/-- Go `(*TagGroup).SetTags` on the store: each round calls `Init` and
`IsTagSkipped` and, for a tag that is not skipped, assigns
`t.tags = append(t.tags, tag)`. -/
def SetTags.exec {T D B : Type} (R : Regexp) (I : ITag T D) :
    List T → Store T B → Store T B
  | [], s => s
  | tag :: rest, s =>
    let tag := I.Init tag
    let r := IsTagSkipped.exec R I s tag
    let s := if !r.2 then ⟨r.1.tags ++ [tag], r.1.SkippedTags, r.1.block, r.1.calls⟩ else r.1
    SetTags.exec R I rest s

/-- The local variables `newTags`, `err` and `tagVal` of `UpdateBlockTags`. -/
structure UpdateLocals (T : Type) where
  newTags : List (Option T)
  err : Option String
  tagVal : Option T

/-- One round of the loop of `UpdateBlockTags` on the store and the local
variables: the call of `CalculateValue`, the assignment of `tagVal` and `err`,
the call of `logger.Error` after a failure, and the append to `newTags`. -/
def UpdateBlockTags.execStep {T D B : Type} (I : ITag T D) (J : IBlock B T) (data : D)
    (p : Store T B × UpdateLocals T) (tag : T) : Store T B × UpdateLocals T :=
  let r := I.CalculateValue tag data
  let s : Store T B :=
    ⟨p.1.tags, p.1.SkippedTags, p.1.block, p.1.calls ++ [Call.CalculateValue tag]⟩
  let s : Store T B :=
    if r.2.isSome then
      ⟨s.tags, s.SkippedTags, s.block,
        s.calls ++ [Call.Error ("Failed to create " ++ I.GetKey tag ++ " tag for block "
          ++ J.GetResourceID s.block)]⟩
    else s
  (s, ⟨p.2.newTags ++ [r.1], r.2, r.1⟩)

/-- Go `(*TagGroup).UpdateBlockTags` on the store: the loop over
`t.GetTags()`, then `block.AddNewTags(newTags)`, then `return err`. -/
def UpdateBlockTags.exec {T D B : Type} (I : ITag T D) (J : IBlock B T) (s : Store T B)
    (data : D) : Store T B × Option String :=
  let g := GetTags.exec s
  let p := g.2.foldl (UpdateBlockTags.execStep I J data) (g.1, ⟨[], none, none⟩)
  (⟨p.1.tags, p.1.SkippedTags, J.AddNewTags p.1.block p.2.newTags,
      p.1.calls ++ [Call.AddNewTags p.2.newTags]⟩, p.2.err)

/-- A call of one of the methods `SetTags`, `GetTags`, `IsTagSkipped` and
`UpdateBlockTags` (on the block of the store), with its arguments. -/
inductive Method (T D : Type) where
  | SetTags (tags : List T)
  | GetTags
  | IsTagSkipped (tag : T)
  | UpdateBlockTags (data : D)

/-- The store after a method call. -/
def Store.call {T D B : Type} (R : Regexp) (I : ITag T D) (J : IBlock B T)
    (s : Store T B) : Method T D → Store T B
  | .SetTags tags => SetTags.exec R I tags s
  | .GetTags => (GetTags.exec s).1
  | .IsTagSkipped tag => (IsTagSkipped.exec R I s tag).1
  | .UpdateBlockTags data => (UpdateBlockTags.exec I J s data).1

/-- Whether a call is a call of `SetTags`. -/
def Method.isSetTags {T D : Type} : Method T D → Bool
  | .SetTags _ => true
  | _ => false

/-! ## Merging computed tags into the tags of a block -/

/-- Whether a tag list has a tag of the key of the tag `new`. -/
def hasKey {T : Type} (key : T → String) (tags : List T) (new : T) : Bool :=
  tags.any (fun e => key e == key new)

/-- Modelled from the spec: the merge of one newly computed tag into the tags
of a block (package `structure`, whose source is missing).  "Merging a newly
computed tag with the same key as an existing tag replaces the value but
preserves the tag's position among existing tags; merging a new-key tag appends
it after existing tags." -/
def mergeTag {T : Type} (key : T → String) (existing : List T) (new : T) : List T :=
  if hasKey key existing new then existing.map (fun e => if key e = key new then new else e)
  else existing ++ [new]

/-- Modelled from the spec: the merge policy into the block (package
`structure`, whose source is missing): the newly computed tags are merged one
after the other in calculator registration order, so that the result has the
"existing tags first (in original order), then newly added tags not already
present, in calculator registration order". -/
def mergeTags {T : Type} (key : T → String) (existing new : List T) : List T :=
  new.foldl (mergeTag key) existing

/-- What stands at the place of the existing tag `e` after the tags `new` were
merged: every new tag of the key of `e` takes the place in its turn. -/
def overwrite {T : Type} (key : T → String) (new : List T) (e : T) : T :=
  new.foldl (fun e n => if key e = key n then n else e) e

/-! ## The line range mapper (package `yaml`) -/

/-- Go `type Lines struct` of package `structure`: an inclusive span of line
numbers, the first line of a file being line 1. -/
structure Lines where
  Start : Nat
  End : Nat
  deriving DecidableEq, Repr

/-- The lines of a text with their numbers, the first one being `n`. -/
def numberLines (n : Nat) : List String → List (Nat × String)
  | [] => []
  | l :: ls => (n, l) :: numberLines (n + 1) ls

/-- The indentation of a line: the number of spaces before its first other
character. -/
def indentation (line : String) : Nat :=
  (line.data.takeWhile (fun c => c = ' ')).length

/-- A blank line has only white space. -/
def isBlank (line : String) : Bool :=
  line.data.all (fun c => c = ' ' || c = '\t' || c = '\r')

/-- Whether the characters `token` occur in a row somewhere in a line. -/
def containsChars (token : List Char) : List Char → Bool
  | [] => token.isEmpty
  | c :: cs => token.isPrefixOf (c :: cs) || containsChars token cs

/-- Modelled from the spec: "locate the line containing the start token".  The
lines after the first line that contains the token, with the indentation of
that line; `none` if no line contains the token. -/
def afterToken (token : String) : List (Nat × String) → Option (Nat × List (Nat × String))
  | [] => none
  | p :: rest =>
    if containsChars token.data p.2.data then some (indentation p.2, rest)
    else afterToken token rest

/-- Modelled from the spec: the resources section of a document, as numbered
lines (the line range mapper of package `yaml` is missing).  It starts after
the line containing the start token and goes on as long as the lines are blank
or nested under that line, that is indented more than it. -/
def resourcesSection (token : String) (text : List String) : List (Nat × String) :=
  match afterToken token (numberLines 1 text) with
  | none => []
  | some (ind, rest) => rest.takeWhile (fun p => isBlank p.2 || decide (ind < indentation p.2))

/-- Modelled from the spec: the resource key level, the indentation of the first line of the section
that is not blank, the level directly nested under the start token. -/
def resourceIndent (sec : List (Nat × String)) : Option Nat :=
  (sec.find? (fun p => !isBlank p.2)).map (fun p => indentation p.2)

/-- Modelled from the spec: the identifier token of a line; the text between its indentation and its
first colon, if it has a colon. -/
def resourceKey (line : String) : Option String :=
  if ':' ∈ line.data.dropWhile (fun c => c = ' ') then
    some (String.mk ((line.data.dropWhile (fun c => c = ' ')).takeWhile (fun c => c ≠ ':')))
  else none

/-- Modelled from the spec: the resource declarations of a section in document
order, each with the number of its line: "resources are assumed to begin at
lines whose indentation matches the expected resource key indentation level
directly nested under that token". -/
def declaredResources (sec : List (Nat × String)) : List (String × Nat) :=
  match resourceIndent sec with
  | none => []
  | some r =>
    sec.filterMap (fun p =>
      if indentation p.2 = r then (resourceKey p.2).map (fun k => (k, p.1)) else none)

/-- Modelled from the spec: "the last non-blank line of the resources section"
(0 if there is none). -/
def lastNonBlank (sec : List (Nat × String)) : Nat :=
  match (sec.filter (fun p => !isBlank p.2)).getLast? with
  | none => 0
  | some p => p.1

/-- Modelled from the spec: the spans for the resource starts in document
order: the `End` of a resource "is one line before the `Start` of the next
resource identifier (in document order), or the last non-blank line of the
resources section if it is the final resource". -/
def spansFrom (last : Nat) : List (String × Nat) → List (String × Lines)
  | [] => []
  | [p] => [(p.1, ⟨p.2, last⟩)]
  | p :: q :: rest => (p.1, ⟨p.2, q.2 - 1⟩) :: spansFrom last (q :: rest)

/-- Modelled from the spec: `yaml.MapResourcesLineYAML`, whose source is
missing, on the lines of the file: the spans of the known resource identifiers,
in document order.  The `Start` of an identifier "is the line where its
identifier token appears". -/
def MapResourcesLineYAML (text : List String) (resourceNames : List String)
    (resourcesStartToken : String) : List (String × Lines) :=
  spansFrom (lastNonBlank (resourcesSection resourcesStartToken text))
    ((declaredResources (resourcesSection resourcesStartToken text)).filter
      (fun p => decide (p.1 ∈ resourceNames)))

/-- A template with the one resource `NewVolume`, laid out as the parser test
expects of `ebs.yaml`: the resource on lines 3 to 13, tagged `MyTag=TagValue`. -/
def singleResourceTemplate : List String :=
  ["AWSTemplateFormatVersion: \"2010-09-09\"",
   "Resources:",
   "  NewVolume:",
   "    Type: AWS::EC2::Volume",
   "    Properties:",
   "      Size: 100",
   "      Encrypted: true",
   "      #Encrypted: false",
   "      Tags:",
   "        - Key: MyTag",
   "          Value: TagValue",
   "      AvailabilityZone: us-west-2a",
   "    DeletionPolicy: Snapshot",
   "",
   "Outputs:",
   "  VolumeId:",
   "    Value: !Ref NewVolume"]

/-- A template with four resources, laid out as the mapper test expects of
`ec2_untagged.yaml`: resources on lines 2 to 5, 6 to 15, 16 to 20 and 21 to 31. -/
def fourResourcesTemplate : List String :=
  ["Resources:",
   "  EC2InstanceResource0:",
   "    Type: AWS::EC2::Instance",
   "    Properties:",
   "      ImageId: ami-04169656fea786776",
   "  EC2InstanceResource1:",
   "    Type: AWS::EC2::Instance",
   "    Properties:",
   "      ImageId: ami-04169656fea786776",
   "      InstanceType: t2.micro",
   "      NetworkInterfaces:",
   "        - DeviceIndex: 0",
   "          SubnetId: subnet-1",
   "          GroupSet:",
   "            - sg-1",
   "  EC2LaunchTemplateResource0:",
   "    Type: AWS::EC2::LaunchTemplate",
   "    Properties:",
   "      LaunchTemplateData:",
   "        ImageId: ami-04169656fea786776",
   "  EC2LaunchTemplateResource1:",
   "    Type: AWS::EC2::LaunchTemplate",
   "    Properties:",
   "      LaunchTemplateName: template1",
   "      LaunchTemplateData:",
   "        ImageId: ami-04169656fea786776",
   "        InstanceType: t2.micro",
   "        BlockDeviceMappings:",
   "          - DeviceName: /dev/sda1",
   "            Ebs:",
   "              VolumeSize: 20",
   ""]

/-! ## Documents with a resources section, by their structure -/

/-- A line of `n` spaces. -/
def blankLine (n : Nat) : String :=
  String.mk (List.replicate n ' ')

/-- A line with `n` spaces before its text. -/
def indented (n : Nat) (text : String) : String :=
  String.mk (List.replicate n ' ' ++ text.data)

/-- The text is not empty and its first character is no white space. -/
def startsWithText (text : String) : Bool :=
  match text.data with
  | [] => false
  | c :: _ => c != ' ' && c != '\t' && c != '\r'

/-- A line of a resource after its declaring line: a line of spaces, or text
nested deeper than the resource key by `deeper + 1` columns. -/
inductive BodyLine where
  | blank (spaces : Nat)
  | nested (deeper : Nat) (text : String)
  deriving DecidableEq, Repr

/-- A resource declaration: its identifier, what follows the colon on the
declaring line, and the lines of the resource after the declaring line. -/
structure ResourceDecl where
  name : String
  rest : String
  body : List BodyLine
  deriving DecidableEq, Repr

/-- A document with a resources section, by its structure: the lines before
the line with the start token, that line (indentation and text), blank lines
(numbers of spaces), the resources, declared at the column `keyIndent`, and
the lines after the section. -/
structure Template where
  before : List String
  tokenIndent : Nat
  tokenText : String
  leading : List Nat
  keyIndent : Nat
  resources : List ResourceDecl
  after : List String

/-- Nested text begins with text (a blank line has none). -/
def BodyLine.beginsWithText : BodyLine → Bool
  | .blank _ => true
  | .nested _ text => startsWithText text

/-- The text of a line of a resource. -/
def BodyLine.render (keyIndent : Nat) : BodyLine → String
  | .blank n => blankLine n
  | .nested d text => indented (keyIndent + 1 + d) text

/-- The lines of the resources: for each resource the declaring line
`identifier:` at the column `keyIndent`, then its lines. -/
def renderResources (keyIndent : Nat) : List ResourceDecl → List String
  | [] => []
  | res :: more =>
    (indented keyIndent (res.name ++ ":" ++ res.rest)
      :: res.body.map (BodyLine.render keyIndent)) ++ renderResources keyIndent more

/-- The lines of the document. -/
def Template.render (tpl : Template) : List String :=
  tpl.before ++ indented tpl.tokenIndent tpl.tokenText
    :: (tpl.leading.map blankLine ++ renderResources tpl.keyIndent tpl.resources ++ tpl.after)

/-- The conditions on a document under which the resources section and its
resources are where the structure says: no line before the resources line
contains the start token, and that line does; the resources are nested under
that line; identifiers have no colon; nested text and the first line after the
section (which is not nested under the resources line) begin with text. -/
def Template.WellFormed (token : String) (tpl : Template) : Prop :=
  (∀ l ∈ tpl.before, ¬ token.data <:+: l.data)
    ∧ token.data <:+: tpl.tokenText.data
    ∧ startsWithText tpl.tokenText = true
    ∧ tpl.tokenIndent < tpl.keyIndent
    ∧ (∀ res ∈ tpl.resources, ':' ∉ res.name.data ∧ startsWithText res.name = true)
    ∧ (∀ res ∈ tpl.resources, ∀ b ∈ res.body, b.beginsWithText = true)
    ∧ (tpl.after = [] ∨ ∃ j text tail, tpl.after = indented j text :: tail
        ∧ j ≤ tpl.tokenIndent ∧ startsWithText text = true)

/-- The lines of a resource without the blank lines at their end. -/
def dropTrailingBlank : List BodyLine → List BodyLine
  | [] => []
  | l :: ls =>
    match dropTrailingBlank ls with
    | [] =>
      match l with
      | .blank _ => []
      | .nested d text => [.nested d text]
    | l' :: ls' => l :: l' :: ls'

/-- The spans that the structure of the document gives, the first resource
being declared on line `start`: a resource takes its declaring line and its
lines, the last one without the blank lines at its end. -/
def expectedSpans (start : Nat) : List ResourceDecl → List (String × Lines)
  | [] => []
  | [res] => [(res.name, ⟨start, start + (dropTrailingBlank res.body).length⟩)]
  | res :: next :: more =>
    (res.name, ⟨start, start + res.body.length⟩)
      :: expectedSpans (start + res.body.length + 1) (next :: more)

/-- The template `fourResourcesTemplate` by its structure. -/
def fourResources : Template :=
  ⟨[], 0, "Resources:", [], 2,
    [⟨"EC2InstanceResource0", "",
        [.nested 1 "Type: AWS::EC2::Instance", .nested 1 "Properties:",
          .nested 3 "ImageId: ami-04169656fea786776"]⟩,
      ⟨"EC2InstanceResource1", "",
        [.nested 1 "Type: AWS::EC2::Instance", .nested 1 "Properties:",
          .nested 3 "ImageId: ami-04169656fea786776", .nested 3 "InstanceType: t2.micro",
          .nested 3 "NetworkInterfaces:", .nested 5 "- DeviceIndex: 0",
          .nested 7 "SubnetId: subnet-1", .nested 7 "GroupSet:", .nested 9 "- sg-1"]⟩,
      ⟨"EC2LaunchTemplateResource0", "",
        [.nested 1 "Type: AWS::EC2::LaunchTemplate", .nested 1 "Properties:",
          .nested 3 "LaunchTemplateData:", .nested 5 "ImageId: ami-04169656fea786776"]⟩,
      ⟨"EC2LaunchTemplateResource1", "",
        [.nested 1 "Type: AWS::EC2::LaunchTemplate", .nested 1 "Properties:",
          .nested 3 "LaunchTemplateName: template1", .nested 3 "LaunchTemplateData:",
          .nested 5 "ImageId: ami-04169656fea786776", .nested 5 "InstanceType: t2.micro",
          .nested 5 "BlockDeviceMappings:", .nested 7 "- DeviceName: /dev/sda1",
          .nested 9 "Ebs:", .nested 11 "VolumeSize: 20", .blank 0]⟩],
    []⟩

/-- The template `singleResourceTemplate` by its structure. -/
def singleResource : Template :=
  ⟨["AWSTemplateFormatVersion: \"2010-09-09\""], 0, "Resources:", [], 2,
    [⟨"NewVolume", "",
        [.nested 1 "Type: AWS::EC2::Volume", .nested 1 "Properties:", .nested 3 "Size: 100",
          .nested 3 "Encrypted: true", .nested 3 "#Encrypted: false", .nested 3 "Tags:",
          .nested 5 "- Key: MyTag", .nested 7 "Value: TagValue",
          .nested 3 "AvailabilityZone: us-west-2a", .nested 1 "DeletionPolicy: Snapshot",
          .blank 0]⟩],
    ["Outputs:", "  VolumeId:", "    Value: !Ref NewVolume"]⟩

/-- A template in which a line before the resources line contains the start
token. -/
def describedTemplate : List String :=
  ["Description: Resources of the volume",
   "Resources:",
   "  NewVolume:",
   "    Type: AWS::EC2::Volume"]

/-- A template with a comment in the first column between two resources. -/
def commentedTemplate : List String :=
  ["Resources:",
   "  VolumeA:",
   "    Type: AWS::EC2::Volume",
   "# the second volume",
   "  VolumeB:",
   "    Type: AWS::EC2::Volume"]

/-! # Theorems -/

/-! ## The loop of `UpdateBlockTags` -/

theorem calculated_append {T : Type} (a b : List (Call T)) :
    calculated (a ++ b) = calculated a ++ calculated b := by
  induction a with
  | nil => rfl
  | cons c cs ih => cases c <;> simp [calculated, ih]

theorem addedTags_append {T : Type} (a b : List (Call T)) :
    addedTags (a ++ b) = addedTags a ++ addedTags b := by
  induction a with
  | nil => rfl
  | cons c cs ih => cases c <;> simp [addedTags, ih]

theorem step_newTags {T D B : Type} (I : ITag T D) (J : IBlock B T) (block : B) (data : D)
    (s : UpdateState T) (tag : T) :
    (UpdateBlockTags.step I J block data s tag).newTags
      = s.newTags ++ [(I.CalculateValue tag data).1] := rfl

theorem step_err {T D B : Type} (I : ITag T D) (J : IBlock B T) (block : B) (data : D)
    (s : UpdateState T) (tag : T) :
    (UpdateBlockTags.step I J block data s tag).err = (I.CalculateValue tag data).2 := rfl

theorem step_calculated {T D B : Type} (I : ITag T D) (J : IBlock B T) (block : B) (data : D)
    (s : UpdateState T) (tag : T) :
    calculated (UpdateBlockTags.step I J block data s tag).calls
      = calculated s.calls ++ [tag] := by
  unfold UpdateBlockTags.step
  by_cases h : (I.CalculateValue tag data).2.isSome <;>
    simp [h, calculated_append, calculated]

theorem step_addedTags {T D B : Type} (I : ITag T D) (J : IBlock B T) (block : B) (data : D)
    (s : UpdateState T) (tag : T) :
    addedTags (UpdateBlockTags.step I J block data s tag).calls = addedTags s.calls := by
  unfold UpdateBlockTags.step
  by_cases h : (I.CalculateValue tag data).2.isSome <;>
    simp [h, addedTags_append, addedTags]

theorem foldl_newTags {T D B : Type} (I : ITag T D) (J : IBlock B T) (block : B) (data : D)
    (tags : List T) (s : UpdateState T) :
    (tags.foldl (UpdateBlockTags.step I J block data) s).newTags
      = s.newTags ++ tags.map (fun tag => (I.CalculateValue tag data).1) := by
  induction tags generalizing s with
  | nil => simp
  | cons tag rest ih => simp [ih, step_newTags]

theorem foldl_calculated {T D B : Type} (I : ITag T D) (J : IBlock B T) (block : B) (data : D)
    (tags : List T) (s : UpdateState T) :
    calculated (tags.foldl (UpdateBlockTags.step I J block data) s).calls
      = calculated s.calls ++ tags := by
  induction tags generalizing s with
  | nil => simp
  | cons tag rest ih => simp [ih, step_calculated]

theorem foldl_addedTags {T D B : Type} (I : ITag T D) (J : IBlock B T) (block : B) (data : D)
    (tags : List T) (s : UpdateState T) :
    addedTags (tags.foldl (UpdateBlockTags.step I J block data) s).calls
      = addedTags s.calls := by
  induction tags generalizing s with
  | nil => simp
  | cons tag rest ih => simp [ih, step_addedTags]

/-- The error that the loop of `UpdateBlockTags` leaves is the one of the
calculator that ran last. -/
theorem foldl_err_snoc {T D B : Type} (I : ITag T D) (J : IBlock B T) (block : B) (data : D)
    (tags : List T) (tag : T) (s : UpdateState T) :
    ((tags ++ [tag]).foldl (UpdateBlockTags.step I J block data) s).err
      = (I.CalculateValue tag data).2 := by
  rw [List.foldl_append]
  rfl

theorem UpdateBlockTags_added {T D B : Type} (I : ITag T D) (J : IBlock B T)
    (t : TagGroup T) (block : B) (data : D) :
    addedTags (t.UpdateBlockTags I J block data).calls
      = [t.GetTags.map (fun tag => (I.CalculateValue tag data).1)] := by
  simp [TagGroup.UpdateBlockTags, addedTags_append, foldl_addedTags, foldl_newTags, addedTags]

theorem UpdateBlockTags_calculated {T D B : Type} (I : ITag T D) (J : IBlock B T)
    (t : TagGroup T) (block : B) (data : D) :
    calculated (t.UpdateBlockTags I J block data).calls = t.GetTags := by
  simp [TagGroup.UpdateBlockTags, calculated_append, foldl_calculated, calculated]

/-! ## `SetTags` -/

theorem SetTags_eq {T D : Type} (R : Regexp) (I : ITag T D) (ts : List T) (t : TagGroup T) :
    t.SetTags R I ts
      = ⟨t.tags ++ (ts.map I.Init).filter
          (fun tag => !IsTagSkipped.loop R (I.GetKey tag) t.SkippedTags), t.SkippedTags⟩ := by
  induction ts generalizing t with
  | nil => simp [TagGroup.SetTags]
  | cons tag rest ih =>
    unfold TagGroup.SetTags
    by_cases h : IsTagSkipped.loop R (I.GetKey (I.Init tag)) t.SkippedTags = true
    · simp [ih, TagGroup.IsTagSkipped, h]
    · simp [ih, TagGroup.IsTagSkipped, h]

theorem SetTags_SkippedTags {T D : Type} (R : Regexp) (I : ITag T D) (ts : List T)
    (t : TagGroup T) : (t.SetTags R I ts).SkippedTags = t.SkippedTags := by
  rw [SetTags_eq]

theorem registered_SkippedTags {T D : Type} (R : Regexp) (I : ITag T D) (S : List String)
    (tss : List (List T)) : (registered R I S tss).SkippedTags = S := by
  unfold registered
  induction tss using List.reverseRecOn with
  | nil => rfl
  | append_singleton tss ts ih => simp [List.foldl_append, SetTags_SkippedTags, ih]

theorem registered_not_skipped {T D : Type} (R : Regexp) (I : ITag T D) (S : List String)
    (tss : List (List T)) :
    ∀ tag ∈ (registered R I S tss).tags, IsTagSkipped.loop R (I.GetKey tag) S = false := by
  induction tss using List.reverseRecOn with
  | nil => simp [registered]
  | append_singleton tss ts ih =>
    intro tag htag
    have hS := registered_SkippedTags R I S tss
    unfold registered at htag ih hS
    rw [List.foldl_append, List.foldl_cons, List.foldl_nil, SetTags_eq, hS] at htag
    simp only [List.mem_append, List.mem_filter] at htag
    rcases htag with h | ⟨_, h⟩
    · exact ih tag h
    · simpa using h

/-! ## Tagging a block: errors and the list handed to the block -/

/-- `UpdateBlockTags` returns the error of the tag registered last, whatever the
calculators before it returned. -/
theorem UpdateBlockTags_err_last {T D B : Type} (I : ITag T D) (J : IBlock B T)
    (tags : List T) (tag : T) (S : List String) (block : B) (data : D) :
    ((⟨tags ++ [tag], S⟩ : TagGroup T).UpdateBlockTags I J block data).err
      = (I.CalculateValue tag data).2 := by
  exact foldl_err_snoc I J block data tags tag ⟨[], none, []⟩

/-- C1, evaluated where it fails: the tag `git_org` is registered first and its
calculation fails, the tag `env` is registered after it and its calculation
succeeds; `UpdateBlockTags` logs the failure and returns no error. -/
theorem UpdateBlockTags_loses_error_before_success :
    ((SampleTag.methods Unit).CalculateValue (.failing "git_org" "no git data") ()).2
        = some "no git data"
      ∧ ((⟨[.failing "git_org" "no git data", .plain "env" "prod"], []⟩ :
            TagGroup SampleTag).UpdateBlockTags
          (SampleTag.methods Unit) Block.methods newVolumeBlock ()).err = none
      ∧ ((⟨[.failing "git_org" "no git data", .plain "env" "prod"], []⟩ :
            TagGroup SampleTag).UpdateBlockTags
          (SampleTag.methods Unit) Block.methods newVolumeBlock ()).calls
        = [Call.CalculateValue (.failing "git_org" "no git data"),
           Call.Error "Failed to create git_org tag for block NewVolume",
           Call.CalculateValue (.plain "env" "prod"),
           Call.AddNewTags [none, some (.plain "env" "prod")]] := by
  refine ⟨rfl, rfl, rfl⟩

/-- C2, evaluated where it fails: the calculation of the one registered tag
fails with a nil tag, and the list handed to `AddNewTags` holds that nil
result; the block's pending set receives it. -/
theorem UpdateBlockTags_adds_failed_result :
    (SampleTag.methods Unit).CalculateValue (.failing "git_org" "no git data") ()
        = (none, some "no git data")
      ∧ addedTags ((⟨[.failing "git_org" "no git data"], []⟩ :
            TagGroup SampleTag).UpdateBlockTags
          (SampleTag.methods Unit) Block.methods newVolumeBlock ()).calls = [[none]]
      ∧ ((⟨[.failing "git_org" "no git data"], []⟩ :
            TagGroup SampleTag).UpdateBlockTags
          (SampleTag.methods Unit) Block.methods newVolumeBlock ()).block.NewTags = [none] := by
  refine ⟨rfl, rfl, rfl⟩

/-- C3: `UpdateBlockTags` calls `CalculateValue` on every registered tag once,
in registration order, whether or not a calculator before it failed, and then
calls `AddNewTags` once, as its last call; the values of the calculators that
succeeded are, in registration order, among the list handed over. -/
theorem UpdateBlockTags_runs_every_calculator {T D B : Type} (I : ITag T D)
    (J : IBlock B T) (t : TagGroup T) (block : B) (data : D) :
    calculated (t.UpdateBlockTags I J block data).calls = t.GetTags
      ∧ (∃ before, (t.UpdateBlockTags I J block data).calls
            = before ++ [Call.AddNewTags
                (t.GetTags.map (fun tag => (I.CalculateValue tag data).1))]
          ∧ addedTags before = [] ∧ calculated before = t.GetTags)
      ∧ (t.UpdateBlockTags I J block data).block
          = J.AddNewTags block (t.GetTags.map (fun tag => (I.CalculateValue tag data).1))
      ∧ List.Sublist
          ((t.GetTags.filter (fun tag => (I.CalculateValue tag data).2.isNone)).map
            (fun tag => (I.CalculateValue tag data).1))
          (t.GetTags.map (fun tag => (I.CalculateValue tag data).1)) := by
  refine ⟨UpdateBlockTags_calculated I J t block data, ?_, ?_, ?_⟩
  · refine ⟨(t.GetTags.foldl (UpdateBlockTags.step I J block data) ⟨[], none, []⟩).calls,
      ?_, ?_, ?_⟩
    · simp [TagGroup.UpdateBlockTags, foldl_newTags]
    · simp [foldl_addedTags, addedTags]
    · simp [foldl_calculated, calculated]
  · simp [TagGroup.UpdateBlockTags, foldl_newTags]
  · exact List.Sublist.map _ (List.filter_sublist _)

/-- C4, amended: `SetTags` leaves the registered tags followed by the
initialised input tags that are not skipped, in input order; for every block and context
`UpdateBlockTags` then calls `CalculateValue` on exactly these tags, so a
skipped tag that was not registered before is never calculated. -/
theorem SetTags_registers_unskipped {T D B : Type} (R : Regexp) (I : ITag T D)
    (J : IBlock B T) (t : TagGroup T) (ts : List T) (block : B) (data : D) :
    (t.SetTags R I ts).GetTags
        = t.GetTags ++ (ts.map I.Init).filter (fun tag => !t.IsTagSkipped R I tag)
      ∧ calculated ((t.SetTags R I ts).UpdateBlockTags I J block data).calls
        = t.GetTags ++ (ts.map I.Init).filter (fun tag => !t.IsTagSkipped R I tag)
      ∧ ∀ tag, t.IsTagSkipped R I tag = true → tag ∉ t.GetTags →
          tag ∉ (t.SetTags R I ts).GetTags
            ∧ tag ∉ calculated ((t.SetTags R I ts).UpdateBlockTags I J block data).calls := by
  have h1 : (t.SetTags R I ts).GetTags
      = t.GetTags ++ (ts.map I.Init).filter (fun tag => !t.IsTagSkipped R I tag) := by
    rw [SetTags_eq]; rfl
  have h3 : ∀ tag, t.IsTagSkipped R I tag = true → tag ∉ t.GetTags →
      tag ∉ (t.SetTags R I ts).GetTags := by
    intro tag hskip hnot hmem
    rw [h1, List.mem_append, List.mem_filter] at hmem
    rcases hmem with h | ⟨_, h⟩
    · exact hnot h
    · simp [hskip] at h
  refine ⟨h1, ?_, ?_⟩
  · rw [UpdateBlockTags_calculated, h1]
  · intro tag hskip hnot
    refine ⟨h3 tag hskip hnot, ?_⟩
    rw [UpdateBlockTags_calculated]
    exact h3 tag hskip hnot

/-! ## The loop of `IsTagSkipped` -/

theorem loop_eq_true_iff (R : Regexp) (key : String) (S : List String) :
    IsTagSkipped.loop R key S = true ↔
      ∃ st ∈ S, (regexp.Match R (strings.ReplaceAll st '*' ".*") key).1 = true
        ∨ (regexp.Match R (strings.ReplaceAll st '*' ".*") key).2.isSome = true := by
  induction S with
  | nil => simp [IsTagSkipped.loop]
  | cons st sts ih =>
    have e : IsTagSkipped.loop R key (st :: sts)
        = (((regexp.Match R (strings.ReplaceAll st '*' ".*") key).1
            || (regexp.Match R (strings.ReplaceAll st '*' ".*") key).2.isSome)
          || IsTagSkipped.loop R key sts) := by
      rw [IsTagSkipped.loop]
      by_cases h : ((regexp.Match R (strings.ReplaceAll st '*' ".*") key).1
          || (regexp.Match R (strings.ReplaceAll st '*' ".*") key).2.isSome) = true
      · simp [h]
      · rw [Bool.not_eq_true] at h
        simp [h]
    rw [e, Bool.or_eq_true, Bool.or_eq_true, ih]
    simp

theorem Match_compile_error (R : Regexp) (pattern key e : String)
    (h : R.Compile pattern = .error e) : regexp.Match R pattern key = (false, some e) := by
  simp [regexp.Match, h]

theorem Match_compile_ok (R : Regexp) (pattern key : String) (re : String → Bool)
    (h : R.Compile pattern = .ok re) : regexp.Match R pattern key = (re key, none) := by
  simp [regexp.Match, h]

/-- A pattern whose translation does not compile skips every key. -/
theorem loop_of_compile_error (R : Regexp) (key : String) (S : List String) (st e : String)
    (hst : st ∈ S) (h : R.Compile (strings.ReplaceAll st '*' ".*") = .error e) :
    IsTagSkipped.loop R key S = true := by
  rw [loop_eq_true_iff]
  exact ⟨st, hst, Or.inr (by rw [Match_compile_error R _ key e h]; rfl)⟩

/-! ## The translated pattern and the glob -/

theorem parseItems_translate (p : List Char) (hp : ∀ c ∈ p, c = '*' ∨ c ∉ specialChars)
    (acc : List Item) :
    parseItems (strings.replaceChars '*' ".*".data p) acc
      = some (.ok (acc.reverse ++ p.map itemOfChar)) := by
  induction p generalizing acc with
  | nil => simp [strings.replaceChars, parseItems]
  | cons c p ih =>
    have hp' : ∀ c ∈ p, c = '*' ∨ c ∉ specialChars := fun d hd => hp d (List.mem_cons_of_mem _ hd)
    by_cases hc : c = '*'
    · subst hc
      have e : strings.replaceChars '*' ".*".data ('*' :: p)
          = '.' :: '*' :: strings.replaceChars '*' ".*".data p := by
        simp [strings.replaceChars]
      rw [e]
      unfold parseItems
      rw [if_neg (by decide), if_pos rfl]
      unfold parseItems
      rw [if_pos rfl]
      simp only [Bool.false_eq_true, if_false]
      rw [ih hp']
      simp [itemOfChar]
    · have hs : c ∉ specialChars := by
        rcases hp c (List.mem_cons_self _ _) with h | h
        · exact absurd h hc
        · exact h
      have h1 : c ≠ '.' := by
        rintro rfl
        exact hs (by decide)
      have h2 : c ≠ '[' := by
        rintro rfl
        exact hs (by decide)
      have e : strings.replaceChars '*' ".*".data (c :: p)
          = c :: strings.replaceChars '*' ".*".data p := by
        simp [strings.replaceChars, hc]
      rw [e]
      unfold parseItems
      rw [if_neg hc, if_neg h1, if_neg h2, if_neg hs, ih hp']
      simp [itemOfChar, hc]

theorem matchStar_iff (a : Atom) (k : List Char → Bool) (s : List Char) :
    matchStar a k s = true ↔
      ∃ w r, s = w ++ r ∧ (∀ c ∈ w, a.accepts c = true) ∧ k r = true := by
  induction s with
  | nil =>
    simp only [matchStar]
    constructor
    · intro h
      exact ⟨[], [], rfl, by simp, h⟩
    · rintro ⟨w, r, hs, -, hk⟩
      have hr : r = [] := (List.append_eq_nil.mp hs.symm).2
      rw [← hr]
      exact hk
  | cons c cs ih =>
    simp only [matchStar, Bool.or_eq_true, Bool.and_eq_true, ih]
    constructor
    · rintro (h | ⟨hc, w, r, hs, hw, hk⟩)
      · exact ⟨[], c :: cs, rfl, by simp, h⟩
      · refine ⟨c :: w, r, by simp [hs], ?_, hk⟩
        intro d hd
        rcases List.mem_cons.mp hd with rfl | hd
        · exact hc
        · exact hw d hd
    · rintro ⟨w, r, hs, hw, hk⟩
      cases w with
      | nil =>
        left
        simp only [List.nil_append] at hs
        rw [hs]
        exact hk
      | cons d w =>
        right
        simp only [List.cons_append, List.cons.injEq] at hs
        obtain ⟨rfl, hs⟩ := hs
        exact ⟨hw c (List.mem_cons_self _ _), w, r, hs,
          fun x hx => hw x (List.mem_cons_of_mem _ hx), hk⟩

theorem matchHere_iff (p : List Char) (s : List Char) :
    matchHere (p.map itemOfChar) s = true ↔
      ∃ m r, s = m ++ r ∧ Glob (fun c => c ≠ '\n') p m := by
  induction p generalizing s with
  | nil =>
    simp only [List.map_nil, matchHere, true_iff]
    exact ⟨[], s, rfl, Glob.nil⟩
  | cons c p ih =>
    by_cases hc : c = '*'
    · subst hc
      have e : matchHere (('*' :: p).map itemOfChar) s
          = matchStar Atom.anyCharNotNL (matchHere (p.map itemOfChar)) s := by
        simp [matchHere, itemOfChar]
      rw [e, matchStar_iff]
      constructor
      · rintro ⟨w, r, hs, hw, hk⟩
        obtain ⟨m, r', hr, hg⟩ := (ih r).mp hk
        refine ⟨w ++ m, r', by simp [hs, hr], Glob.star ?_ hg⟩
        intro d hd
        simpa [Atom.accepts] using hw d hd
      · rintro ⟨m, r, hs, hg⟩
        cases hg with
        | lit hne _ => exact absurd rfl hne
        | @star w _ m' hw hg =>
          refine ⟨w, m' ++ r, by simp [hs], ?_, (ih (m' ++ r)).mpr ⟨m', r, rfl, hg⟩⟩
          intro d hd
          simpa [Atom.accepts] using hw d hd
    · have e : matchHere ((c :: p).map itemOfChar) s
          = match s with
            | [] => false
            | d :: ds => (Atom.lit c).accepts d && matchHere (p.map itemOfChar) ds := by
        simp [matchHere, itemOfChar, hc]
      rw [e]
      cases s with
      | nil =>
        simp only [Bool.false_eq_true, false_iff]
        rintro ⟨m, r, hs, hg⟩
        cases hg with
        | lit _ _ => simp at hs
        | star _ _ => exact hc rfl
      | cons d ds =>
        simp only [Bool.and_eq_true, Atom.accepts, beq_iff_eq, ih]
        constructor
        · rintro ⟨rfl, m, r, hs, hg⟩
          exact ⟨c :: m, r, by simp [hs], Glob.lit hc hg⟩
        · rintro ⟨m, r, hs, hg⟩
          cases hg with
          | @lit _ _ m' _ hg =>
            simp only [List.cons_append, List.cons.injEq] at hs
            exact ⟨hs.1.symm, m', r, hs.2, hg⟩
          | star _ _ => exact absurd rfl hc

theorem matchAnywhere_iff (its : List Item) (s : List Char) :
    matchAnywhere its s = true ↔ ∃ u t, s = u ++ t ∧ matchHere its t = true := by
  induction s with
  | nil =>
    simp only [matchAnywhere]
    constructor
    · intro h
      exact ⟨[], [], rfl, h⟩
    · rintro ⟨u, t, hs, h⟩
      have ht : t = [] := (List.append_eq_nil.mp hs.symm).2
      rw [← ht]
      exact h
  | cons c cs ih =>
    simp only [matchAnywhere, Bool.or_eq_true, ih]
    constructor
    · rintro (h | ⟨u, t, hs, h⟩)
      · exact ⟨[], c :: cs, rfl, h⟩
      · exact ⟨c :: u, t, by simp [hs], h⟩
    · rintro ⟨u, t, hs, h⟩
      cases u with
      | nil =>
        left
        simp only [List.nil_append] at hs
        rw [hs]
        exact h
      | cons d u =>
        right
        simp only [List.cons_append, List.cons.injEq] at hs
        exact ⟨u, t, hs.2, h⟩

/-- The translation of a pattern of literal characters and `*` compiles, to
the search for its items anywhere in the input. -/
theorem goRegexp_compile_translate (rest : Regexp) (st : String) (h : LiteralOrStar st) :
    (goRegexp rest).Compile (strings.ReplaceAll st '*' ".*")
      = .ok (fun b => matchAnywhere (st.data.map itemOfChar) b.data) := by
  have hp := parseItems_translate st.data h []
  simp only [List.reverse_nil, List.nil_append] at hp
  simp [goRegexp, compileItems, strings.ReplaceAll, hp]

/-- A pattern of literal characters and `*` matches a key exactly when some
substring of the key matches it as a glob whose `*` takes no line feed. -/
theorem Match_literalOrStar (rest : Regexp) (st key : String) (h : LiteralOrStar st) :
    regexp.Match (goRegexp rest) (strings.ReplaceAll st '*' ".*") key
      = (matchAnywhere (st.data.map itemOfChar) key.data, none) := by
  rw [Match_compile_ok _ _ _ _ (goRegexp_compile_translate rest st h)]

theorem matchAnywhere_glob (p s : List Char) :
    matchAnywhere (p.map itemOfChar) s = true ↔
      ∃ u m v, s = u ++ m ++ v ∧ Glob (fun c => c ≠ '\n') p m := by
  rw [matchAnywhere_iff]
  constructor
  · rintro ⟨u, t, hs, h⟩
    obtain ⟨m, r, ht, hg⟩ := (matchHere_iff p t).mp h
    exact ⟨u, m, r, by simp [hs, ht], hg⟩
  · rintro ⟨u, m, v, hs, hg⟩
    exact ⟨u, m ++ v, by simp [hs], (matchHere_iff p (m ++ v)).mpr ⟨m, v, rfl, hg⟩⟩

theorem glob_eq_of_no_star {allowed : Char → Prop} {p s : List Char}
    (h : Glob allowed p s) (hp : '*' ∉ p) : s = p := by
  induction h with
  | nil => rfl
  | lit _ _ ih => rw [ih (fun hm => hp (List.mem_cons_of_mem _ hm))]
  | star _ _ _ => exact absurd (List.mem_cons_self _ _) hp

theorem glob_self_of_no_star (allowed : Char → Prop) (p : List Char) (hp : '*' ∉ p) :
    Glob allowed p p := by
  induction p with
  | nil => exact Glob.nil
  | cons c p ih =>
    refine Glob.lit ?_ (ih (fun hm => hp (List.mem_cons_of_mem _ hm)))
    rintro rfl
    exact hp (List.mem_cons_self _ _)

/-- One pattern of literal characters and `*`: the loop of `IsTagSkipped`
answers whether some substring of the key matches the glob. -/
theorem loop_single_literalOrStar (rest : Regexp) (st key : String) (h : LiteralOrStar st) :
    IsTagSkipped.loop (goRegexp rest) key [st] = true ↔
      ∃ u m v, key.data = u ++ m ++ v ∧ Glob (fun c => c ≠ '\n') st.data m := by
  rw [loop_eq_true_iff]
  simp only [List.mem_singleton, exists_eq_left, Match_literalOrStar rest st key h,
    Option.isSome_none, Bool.false_eq_true, or_false]
  exact matchAnywhere_glob st.data key.data

theorem foldl_err_none {T D B : Type} (I : ITag T D) (J : IBlock B T) (block : B) (data : D)
    (tags : List T) (s : UpdateState T) (hs : s.err = none)
    (h : ∀ tag ∈ tags, (I.CalculateValue tag data).2 = none) :
    (tags.foldl (UpdateBlockTags.step I J block data) s).err = none := by
  induction tags generalizing s with
  | nil => simpa using hs
  | cons tag rest ih =>
    rw [List.foldl_cons]
    apply ih
    · rw [step_err]
      exact h tag (List.mem_cons_self _ _)
    · exact fun x hx => h x (List.mem_cons_of_mem _ hx)

theorem sample_KeepsKey (D : Type) : (SampleTag.methods D).KeepsKey := by
  intro t d v h
  cases t with
  | plain k w =>
    simp only [SampleTag.methods, Option.some.injEq] at h
    rw [← h]
  | failing k msg => simp [SampleTag.methods] at h

/-! ## The skip list -/

/-- C5 fails for a skip list that is set after `SetTags`: the tag `foo_bar` is
registered while the skip list is empty, the skip list then becomes `foo*`,
and `UpdateBlockTags` adds the tag to the block although its key matches the
pattern. -/
theorem skip_list_set_after_SetTags_is_not_applied :
    ((⟨[], []⟩ : TagGroup SampleTag).SetTags (goRegexp Regexp.unmodelled)
        (SampleTag.methods Unit) [.plain "foo_bar" "v"]).GetTags = [.plain "foo_bar" "v"]
      ∧ addedTags ((⟨((⟨[], []⟩ : TagGroup SampleTag).SetTags (goRegexp Regexp.unmodelled)
            (SampleTag.methods Unit) [.plain "foo_bar" "v"]).GetTags, ["foo*"]⟩ :
            TagGroup SampleTag).UpdateBlockTags
          (SampleTag.methods Unit) Block.methods newVolumeBlock ()).calls
        = [[some (.plain "foo_bar" "v")]]
      ∧ (⟨((⟨[], []⟩ : TagGroup SampleTag).SetTags (goRegexp Regexp.unmodelled)
            (SampleTag.methods Unit) [.plain "foo_bar" "v"]).GetTags, ["foo*"]⟩ :
            TagGroup SampleTag).IsTagSkipped (goRegexp Regexp.unmodelled)
          (SampleTag.methods Unit) (.plain "foo_bar" "v") = true := by
  refine ⟨by decide, by decide, by decide⟩

/-- C5, amended: when the skip list `S` is set before the tags are registered
with `SetTags` and is not changed afterwards, then for every block and context
the list that `UpdateBlockTags` adds to the block holds one result for each
registered tag, no registered tag has a key that matches a skip pattern, and,
the calculators returning their tag under their own key, no tag in the list
has a key that matches a skip pattern, whether or not its calculator
succeeded. -/
theorem registered_tags_match_no_skip_pattern {T D B : Type} (R : Regexp) (I : ITag T D)
    (J : IBlock B T) (S : List String) (tss : List (List T)) (block : B) (data : D) :
    (registered R I S tss).SkippedTags = S
      ∧ addedTags ((registered R I S tss).UpdateBlockTags I J block data).calls
        = [(registered R I S tss).GetTags.map (fun tag => (I.CalculateValue tag data).1)]
      ∧ (∀ tag ∈ (registered R I S tss).GetTags,
          (registered R I S tss).IsTagSkipped R I tag = false)
      ∧ (I.KeepsKey →
          ∀ l ∈ addedTags ((registered R I S tss).UpdateBlockTags I J block data).calls,
            ∀ v, some v ∈ l → (registered R I S tss).IsTagSkipped R I v = false) := by
  have hS := registered_SkippedTags R I S tss
  have hreg : ∀ tag ∈ (registered R I S tss).GetTags,
      (registered R I S tss).IsTagSkipped R I tag = false := by
    intro tag htag
    unfold TagGroup.IsTagSkipped
    rw [hS]
    exact registered_not_skipped R I S tss tag htag
  refine ⟨hS, UpdateBlockTags_added I J _ block data, hreg, ?_⟩
  intro hK l hl v hv
  rw [UpdateBlockTags_added, List.mem_singleton] at hl
  subst hl
  obtain ⟨tag, htag, hval⟩ := List.mem_map.mp hv
  have hkey : I.GetKey v = I.GetKey tag := hK tag data v hval
  have := hreg tag htag
  unfold TagGroup.IsTagSkipped at this ⊢
  rw [hkey]
  exact this

/-- C5, amended, at a concrete input: with the skip list `foo*` set first, the
tags `foo_bar` and `env` handed to `SetTags` leave `env` registered, and only
`env` is added to the block. -/
theorem registered_tags_match_no_skip_pattern_witness :
    (registered (goRegexp Regexp.unmodelled) (SampleTag.methods Unit) ["foo*"]
        [[.plain "foo_bar" "v", .plain "env" "prod"]]).GetTags = [.plain "env" "prod"]
      ∧ ∀ l ∈ addedTags ((registered (goRegexp Regexp.unmodelled) (SampleTag.methods Unit)
            ["foo*"] [[.plain "foo_bar" "v", .plain "env" "prod"]]).UpdateBlockTags
          (SampleTag.methods Unit) Block.methods newVolumeBlock ()).calls,
        ∀ v, some v ∈ l →
          (registered (goRegexp Regexp.unmodelled) (SampleTag.methods Unit) ["foo*"]
            [[.plain "foo_bar" "v", .plain "env" "prod"]]).IsTagSkipped
            (goRegexp Regexp.unmodelled) (SampleTag.methods Unit) v = false :=
  ⟨by decide,
    (registered_tags_match_no_skip_pattern (goRegexp Regexp.unmodelled)
      (SampleTag.methods Unit) Block.methods ["foo*"]
      [[.plain "foo_bar" "v", .plain "env" "prod"]] newVolumeBlock ()).2.2.2
      (sample_KeepsKey Unit)⟩

/-- With `foo*` in the skip list every key that starts with `foo` is skipped. -/
theorem loop_foo_star (rest : Regexp) (S : List String) (h : "foo*" ∈ S) (s : String) :
    IsTagSkipped.loop (goRegexp rest) ("foo" ++ s) S = true := by
  rw [loop_eq_true_iff]
  refine ⟨"foo*", h, Or.inl ?_⟩
  rw [Match_literalOrStar rest "foo*" _ (by decide)]
  show matchAnywhere ("foo*".data.map itemOfChar) ("foo" ++ s).data = true
  rw [matchAnywhere_glob]
  refine ⟨[], "foo".data, s.data, by simp [String.data_append], ?_⟩
  exact Glob.lit (by decide) (Glob.lit (by decide) (Glob.lit (by decide)
    (Glob.star (w := []) (by simp) Glob.nil)))

/-- C6, amended: with `foo*` in the skip list, `IsTagSkipped` holds of every tag whose
key starts with `foo`, so of the key `foo_bar`; `SetTags` does not register
such a tag; and a group whose tags were registered under that skip list has no
registered tag of key `foo_bar`, so that for every block and context the list
added by `UpdateBlockTags`, one result for each registered tag, has no tag of
that key (the calculators returning their tag under their own key). -/
theorem foo_star_skips_foo_bar {T D B : Type} (rest : Regexp) (I : ITag T D)
    (J : IBlock B T) (S : List String) (h : "foo*" ∈ S) :
    (∀ (t : TagGroup T) (tag : T), t.SkippedTags = S →
        (I.GetKey tag = "foo_bar" ∨ ∃ s, I.GetKey tag = "foo" ++ s) →
        t.IsTagSkipped (goRegexp rest) I tag = true)
      ∧ (∀ (t : TagGroup T) (ts : List T) (tag : T), t.SkippedTags = S →
          I.GetKey tag = "foo_bar" → tag ∉ t.GetTags →
          tag ∉ (t.SetTags (goRegexp rest) I ts).GetTags)
      ∧ (∀ (tss : List (List T)) (block : B) (data : D),
          (∀ tag ∈ (registered (goRegexp rest) I S tss).GetTags, I.GetKey tag ≠ "foo_bar")
          ∧ addedTags ((registered (goRegexp rest) I S tss).UpdateBlockTags
                I J block data).calls
            = [(registered (goRegexp rest) I S tss).GetTags.map
                (fun tag => (I.CalculateValue tag data).1)]
          ∧ (I.KeepsKey →
              ∀ l ∈ addedTags ((registered (goRegexp rest) I S tss).UpdateBlockTags
                  I J block data).calls,
                ∀ v, some v ∈ l → I.GetKey v ≠ "foo_bar")) := by
  have hskip : ∀ (t : TagGroup T) (tag : T), t.SkippedTags = S →
      (I.GetKey tag = "foo_bar" ∨ ∃ s, I.GetKey tag = "foo" ++ s) →
      t.IsTagSkipped (goRegexp rest) I tag = true := by
    intro t tag hS hkey
    unfold TagGroup.IsTagSkipped
    rw [hS]
    rcases hkey with hk | ⟨s, hk⟩
    · rw [hk]
      exact loop_foo_star rest S h "_bar"
    · rw [hk]
      exact loop_foo_star rest S h s
  have hreg : ∀ (tss : List (List T)),
      ∀ tag ∈ (registered (goRegexp rest) I S tss).GetTags, I.GetKey tag ≠ "foo_bar" := by
    intro tss tag htag hk
    have h1 := registered_not_skipped (goRegexp rest) I S tss tag htag
    have h2 := hskip ⟨[], S⟩ tag rfl (Or.inl hk)
    unfold TagGroup.IsTagSkipped at h2
    rw [h1] at h2
    exact Bool.false_ne_true h2
  refine ⟨hskip, ?_, ?_⟩
  · intro t ts tag hS hk hnot hmem
    have := hskip t tag hS (Or.inl hk)
    rw [SetTags_eq] at hmem
    simp only [TagGroup.GetTags, List.mem_append, List.mem_filter] at hmem
    rcases hmem with hm | ⟨_, hm⟩
    · exact hnot hm
    · unfold TagGroup.IsTagSkipped at this
      simp [this] at hm
  · intro tss block data
    refine ⟨hreg tss, UpdateBlockTags_added I J _ block data, ?_⟩
    intro hK l hl v hv
    rw [UpdateBlockTags_added, List.mem_singleton] at hl
    subst hl
    obtain ⟨tag, htag, hval⟩ := List.mem_map.mp hv
    rw [hK tag data v hval]
    exact hreg tss tag htag

/-- C6, amended, at a concrete input: under the skip list `foo*` the tag `foo_bar`, whose
calculation would succeed, is skipped, `SetTags` registers only `env`, and the
list added to the block holds only `env`. -/
theorem foo_star_skips_foo_bar_witness :
    "foo*" ∈ ["foo*"]
      ∧ (⟨[], ["foo*"]⟩ : TagGroup SampleTag).IsTagSkipped (goRegexp Regexp.unmodelled)
          (SampleTag.methods Unit) (.plain "foo_bar" "v") = true
      ∧ (SampleTag.plain "foo_bar" "v") ∉ ((⟨[], ["foo*"]⟩ : TagGroup SampleTag).SetTags
          (goRegexp Regexp.unmodelled) (SampleTag.methods Unit)
          [.plain "foo_bar" "v", .plain "env" "prod"]).GetTags
      ∧ addedTags ((registered (goRegexp Regexp.unmodelled) (SampleTag.methods Unit)
            ["foo*"] [[.plain "foo_bar" "v", .plain "env" "prod"]]).UpdateBlockTags
          (SampleTag.methods Unit) Block.methods newVolumeBlock ()).calls
        = [[some (.plain "env" "prod")]] :=
  ⟨by decide,
    (foo_star_skips_foo_bar Regexp.unmodelled (SampleTag.methods Unit) Block.methods
      ["foo*"] (by decide)).1 ⟨[], ["foo*"]⟩ (.plain "foo_bar" "v") rfl (Or.inl rfl),
    (foo_star_skips_foo_bar Regexp.unmodelled (SampleTag.methods Unit) Block.methods
      ["foo*"] (by decide)).2.1 ⟨[], ["foo*"]⟩ [.plain "foo_bar" "v", .plain "env" "prod"]
      (.plain "foo_bar" "v") rfl rfl (by simp [TagGroup.GetTags]),
    by decide⟩

/-- C7 fails in both directions: the pattern `foo` skips the key `xfoo`, which
as a whole does not match it; and the pattern `a*b` does not skip the key made
of `a`, a line feed and `b`, which as a whole matches the glob whose `*` stands
for any substring. -/
theorem whole_key_matching_fails :
    (LiteralOrStar "foo"
        ∧ (⟨[], ["foo"]⟩ : TagGroup SampleTag).IsTagSkipped (goRegexp Regexp.unmodelled)
            (SampleTag.methods Unit) (.plain "xfoo" "v") = true
        ∧ ¬ Glob (fun _ => True) "foo".data "xfoo".data)
      ∧ (LiteralOrStar "a*b"
        ∧ (⟨[], ["a*b"]⟩ : TagGroup SampleTag).IsTagSkipped (goRegexp Regexp.unmodelled)
            (SampleTag.methods Unit) (.plain "a\nb" "v") = false
        ∧ Glob (fun _ => True) "a*b".data "a\nb".data) := by
  refine ⟨⟨by decide, by decide, ?_⟩, by decide, by decide, ?_⟩
  · intro hg
    have := glob_eq_of_no_star hg (by decide)
    exact absurd this (by decide)
  · exact Glob.lit (by decide) (Glob.star (w := ['\n']) (by simp) (Glob.lit (by decide) Glob.nil))

/-- C7, amended: for a skip pattern built from literal characters and `*`,
`IsTagSkipped` with that single pattern holds exactly when some substring of
the key matches the pattern as a glob in which `*` stands for any substring
without a line feed; so a pattern without `*` skips exactly the keys that
contain it. -/
theorem single_pattern_skips_iff_substring_glob {T D : Type} (rest : Regexp) (I : ITag T D)
    (t : TagGroup T) (st : String) (tag : T) (hS : t.SkippedTags = [st])
    (h : LiteralOrStar st) :
    (t.IsTagSkipped (goRegexp rest) I tag = true ↔
        ∃ u m v, (I.GetKey tag).data = u ++ m ++ v ∧ Glob (fun c => c ≠ '\n') st.data m)
      ∧ ('*' ∉ st.data →
          (t.IsTagSkipped (goRegexp rest) I tag = true ↔
            ∃ u v, (I.GetKey tag).data = u ++ st.data ++ v)) := by
  have h1 : t.IsTagSkipped (goRegexp rest) I tag = true ↔
      ∃ u m v, (I.GetKey tag).data = u ++ m ++ v ∧ Glob (fun c => c ≠ '\n') st.data m := by
    unfold TagGroup.IsTagSkipped
    rw [hS]
    exact loop_single_literalOrStar rest st (I.GetKey tag) h
  refine ⟨h1, fun hstar => ?_⟩
  rw [h1]
  constructor
  · rintro ⟨u, m, v, hk, hg⟩
    rw [glob_eq_of_no_star hg hstar] at hk
    exact ⟨u, v, hk⟩
  · rintro ⟨u, v, hk⟩
    exact ⟨u, st.data, v, hk, glob_self_of_no_star _ _ hstar⟩

/-- C7, amended, at a concrete input: the pattern `foo` skips the key `xfoo`,
which contains it. -/
theorem single_pattern_skips_iff_substring_glob_witness :
    (⟨[], ["foo"]⟩ : TagGroup SampleTag).SkippedTags = ["foo"] ∧ LiteralOrStar "foo"
      ∧ (⟨[], ["foo"]⟩ : TagGroup SampleTag).IsTagSkipped (goRegexp Regexp.unmodelled)
          (SampleTag.methods Unit) (.plain "xfoo" "v") = true :=
  ⟨rfl, by decide,
    ((single_pattern_skips_iff_substring_glob Regexp.unmodelled (SampleTag.methods Unit)
      ⟨[], ["foo"]⟩ "foo" (.plain "xfoo" "v") rfl (by decide)).2 (by decide)).mpr
      ⟨"x".data, [], rfl⟩⟩

/-- C8 fails where the key has a line feed: the translation `env.*prod` of the
pattern `env*prod` compiles and matches nothing in the key made of `env`, a
line feed and `prod`, so the tag is not skipped, although the glob whose `*`
expands to arbitrary characters matches the key. -/
theorem star_does_not_expand_to_line_feed :
    LiteralOrStar "env*prod"
      ∧ regexp.Match (goRegexp Regexp.unmodelled) (strings.ReplaceAll "env*prod" '*' ".*")
          "env\nprod" = (false, none)
      ∧ (⟨[], ["env*prod"]⟩ : TagGroup SampleTag).IsTagSkipped (goRegexp Regexp.unmodelled)
          (SampleTag.methods Unit) (.plain "env\nprod" "v") = false
      ∧ "env\nprod".data = [] ++ "env\nprod".data ++ []
      ∧ Glob (fun _ => True) "env*prod".data "env\nprod".data := by
  refine ⟨by decide, by decide, by decide, by decide, ?_⟩
  exact Glob.lit (by decide) (Glob.lit (by decide) (Glob.lit (by decide)
    (Glob.star (w := ['\n']) (by simp)
      (Glob.lit (by decide) (Glob.lit (by decide) (Glob.lit (by decide)
        (Glob.lit (by decide) Glob.nil)))))))

/-- C8, amended: for every skip list and key, `IsTagSkipped` holds exactly when
for some pattern of the list the pattern with every `*` replaced by `.*` does
not compile or its compiled expression finds a match in the key; for patterns
built only from literal characters and `*` this is the glob in which `*`
expands to zero or more characters other than the line feed, matched anywhere
inside the key. -/
theorem skipped_iff_translation_fails_or_matches {T D : Type} (R rest : Regexp)
    (I : ITag T D) (t : TagGroup T) (tag : T) :
    (t.IsTagSkipped R I tag = true ↔
        ∃ st ∈ t.SkippedTags,
          (∃ e, R.Compile (strings.ReplaceAll st '*' ".*") = .error e)
          ∨ (∃ re, R.Compile (strings.ReplaceAll st '*' ".*") = .ok re
              ∧ re (I.GetKey tag) = true))
      ∧ ((∀ st ∈ t.SkippedTags, LiteralOrStar st) →
          (t.IsTagSkipped (goRegexp rest) I tag = true ↔
            ∃ st ∈ t.SkippedTags, ∃ u m v,
              (I.GetKey tag).data = u ++ m ++ v
                ∧ Glob (fun c => c ≠ '\n') st.data m)) := by
  constructor
  · unfold TagGroup.IsTagSkipped
    rw [loop_eq_true_iff]
    constructor
    · rintro ⟨st, hst, hm⟩
      refine ⟨st, hst, ?_⟩
      cases hc : R.Compile (strings.ReplaceAll st '*' ".*") with
      | error e => exact Or.inl ⟨e, rfl⟩
      | ok re =>
        rw [Match_compile_ok R _ _ re hc] at hm
        simp only [Option.isSome_none, Bool.false_eq_true, or_false] at hm
        exact Or.inr ⟨re, rfl, hm⟩
    · rintro ⟨st, hst, ⟨e, he⟩ | ⟨re, hre, hm⟩⟩
      · exact ⟨st, hst, Or.inr (by rw [Match_compile_error R _ _ e he]; rfl)⟩
      · exact ⟨st, hst, Or.inl (by rw [Match_compile_ok R _ _ re hre]; exact hm)⟩
  · intro hS
    unfold TagGroup.IsTagSkipped
    rw [loop_eq_true_iff]
    constructor
    · rintro ⟨st, hst, hm⟩
      rw [Match_literalOrStar rest st _ (hS st hst)] at hm
      simp only [Option.isSome_none, Bool.false_eq_true, or_false] at hm
      exact ⟨st, hst, (matchAnywhere_glob _ _).mp hm⟩
    · rintro ⟨st, hst, hg⟩
      refine ⟨st, hst, Or.inl ?_⟩
      rw [Match_literalOrStar rest st _ (hS st hst)]
      exact (matchAnywhere_glob _ _).mpr hg

/-- C8, amended, at a concrete input: in the skip list `env`, `git_*` the second
pattern skips the key `yor_git_org`, inside which the glob matches `git_org`. -/
theorem skipped_iff_translation_fails_or_matches_witness :
    (∀ st ∈ (⟨[], ["env", "git_*"]⟩ : TagGroup SampleTag).SkippedTags, LiteralOrStar st)
      ∧ (⟨[], ["env", "git_*"]⟩ : TagGroup SampleTag).IsTagSkipped
          (goRegexp Regexp.unmodelled) (SampleTag.methods Unit)
          (.plain "yor_git_org" "v") = true :=
  ⟨by decide,
    ((skipped_iff_translation_fails_or_matches Regexp.unmodelled Regexp.unmodelled
      (SampleTag.methods Unit) ⟨[], ["env", "git_*"]⟩ (.plain "yor_git_org" "v")).2
      (by decide)).mpr
      ⟨"git_*", by decide, "yor_".data, "git_org".data, [], by decide,
        Glob.lit (by decide) (Glob.lit (by decide) (Glob.lit (by decide)
          (Glob.lit (by decide) (Glob.star (w := "org".data) (by decide) Glob.nil))))⟩⟩

/-- The pattern `[` is translated to itself and does not compile. -/
theorem bracket_does_not_compile (rest : Regexp) :
    (goRegexp rest).Compile (strings.ReplaceAll "[" '*' ".*")
      = .error "error parsing regexp: missing closing ]" := by
  rfl

/-- C9: if the skip list contains, at any place, a pattern whose translation
does not compile, then `IsTagSkipped` holds of every tag and `SetTags`
registers no tag; the pattern `[` is such a pattern. -/
theorem malformed_pattern_skips_everything {T D : Type} (R : Regexp) (I : ITag T D)
    (t : TagGroup T) (st e : String) (hst : st ∈ t.SkippedTags)
    (herr : R.Compile (strings.ReplaceAll st '*' ".*") = .error e) :
    (∀ tag, t.IsTagSkipped R I tag = true)
      ∧ (∀ ts, (t.SetTags R I ts).GetTags = t.GetTags)
      ∧ (∀ rest, ∃ e, (goRegexp rest).Compile (strings.ReplaceAll "[" '*' ".*") = .error e) := by
  have hall : ∀ tag, t.IsTagSkipped R I tag = true :=
    fun tag => loop_of_compile_error R (I.GetKey tag) t.SkippedTags st e hst herr
  refine ⟨hall, ?_, fun rest => ⟨_, bracket_does_not_compile rest⟩⟩
  intro ts
  rw [SetTags_eq]
  have hfil : (ts.map I.Init).filter
      (fun tag => !IsTagSkipped.loop R (I.GetKey tag) t.SkippedTags) = [] := by
    rw [List.filter_eq_nil_iff]
    intro tag _
    have := hall tag
    unfold TagGroup.IsTagSkipped at this
    simp [this]
  simp [TagGroup.GetTags, hfil]

/-- C9 at a concrete input: with the skip list `env`, `[` every tag is skipped,
here `new_tag`, and `SetTags` registers nothing. -/
theorem malformed_pattern_skips_everything_witness :
    "[" ∈ (⟨[], ["env", "["]⟩ : TagGroup SampleTag).SkippedTags
      ∧ (goRegexp Regexp.unmodelled).Compile (strings.ReplaceAll "[" '*' ".*")
          = .error "error parsing regexp: missing closing ]"
      ∧ (⟨[], ["env", "["]⟩ : TagGroup SampleTag).IsTagSkipped (goRegexp Regexp.unmodelled)
          (SampleTag.methods Unit) (.plain "new_tag" "new_value") = true
      ∧ ((⟨[], ["env", "["]⟩ : TagGroup SampleTag).SetTags (goRegexp Regexp.unmodelled)
          (SampleTag.methods Unit) [.plain "new_tag" "new_value"]).GetTags = [] :=
  ⟨by decide, rfl,
    (malformed_pattern_skips_everything (goRegexp Regexp.unmodelled) (SampleTag.methods Unit)
      ⟨[], ["env", "["]⟩ "[" _ (by decide) rfl).1 (.plain "new_tag" "new_value"),
    (malformed_pattern_skips_everything (goRegexp Regexp.unmodelled) (SampleTag.methods Unit)
      ⟨[], ["env", "["]⟩ "[" _ (by decide) rfl).2.1 [.plain "new_tag" "new_value"]⟩

/-- C10: with an empty skip list `SetTags` registers all the tags handed over,
initialised, in order; and if the calculators of all registered tags succeed,
`UpdateBlockTags` returns no error and hands `AddNewTags` the list of the
calculated values, one for each registered tag in registration order. -/
theorem empty_skip_list_tags_block {T D B : Type} (R : Regexp) (I : ITag T D)
    (J : IBlock B T) (t : TagGroup T) (ts : List T) (block : B) (data : D)
    (hS : t.SkippedTags = [])
    (hok : ∀ tag ∈ t.GetTags ++ ts.map I.Init, (I.CalculateValue tag data).2 = none) :
    (t.SetTags R I ts).GetTags = t.GetTags ++ ts.map I.Init
      ∧ ((t.SetTags R I ts).UpdateBlockTags I J block data).err = none
      ∧ addedTags ((t.SetTags R I ts).UpdateBlockTags I J block data).calls
        = [(t.GetTags ++ ts.map I.Init).map (fun tag => (I.CalculateValue tag data).1)]
      ∧ ((t.SetTags R I ts).UpdateBlockTags I J block data).block
        = J.AddNewTags block
            ((t.GetTags ++ ts.map I.Init).map (fun tag => (I.CalculateValue tag data).1)) := by
  have h1 : (t.SetTags R I ts).GetTags = t.GetTags ++ ts.map I.Init := by
    rw [SetTags_eq, hS]
    simp [TagGroup.GetTags, IsTagSkipped.loop]
  refine ⟨h1, ?_, ?_, ?_⟩
  · unfold TagGroup.UpdateBlockTags
    rw [h1]
    exact foldl_err_none I J block data _ _ rfl hok
  · rw [UpdateBlockTags_added, h1]
  · unfold TagGroup.UpdateBlockTags
    simp only [foldl_newTags, List.nil_append, h1]

/-- C10 at the input of the test: the tag `new_tag=new_value` is registered in
a group without skip patterns and applied to the block of `NewVolume`; no error
is returned and the block's pending tags are that one tag. -/
theorem empty_skip_list_tags_block_witness :
    (⟨[], []⟩ : TagGroup SampleTag).SkippedTags = []
      ∧ (∀ tag ∈ (⟨[], []⟩ : TagGroup SampleTag).GetTags
            ++ [SampleTag.plain "new_tag" "new_value"].map (SampleTag.methods Unit).Init,
          ((SampleTag.methods Unit).CalculateValue tag ()).2 = none)
      ∧ ((⟨[], []⟩ : TagGroup SampleTag).SetTags (goRegexp Regexp.unmodelled)
          (SampleTag.methods Unit) [.plain "new_tag" "new_value"]).GetTags
        = [.plain "new_tag" "new_value"]
      ∧ (((⟨[], []⟩ : TagGroup SampleTag).SetTags (goRegexp Regexp.unmodelled)
          (SampleTag.methods Unit) [.plain "new_tag" "new_value"]).UpdateBlockTags
          (SampleTag.methods Unit) Block.methods newVolumeBlock ()).err = none
      ∧ (((⟨[], []⟩ : TagGroup SampleTag).SetTags (goRegexp Regexp.unmodelled)
          (SampleTag.methods Unit) [.plain "new_tag" "new_value"]).UpdateBlockTags
          (SampleTag.methods Unit) Block.methods newVolumeBlock ()).block
        = ⟨"NewVolume", (3, 13), [.plain "MyTag" "TagValue"],
            [some (.plain "new_tag" "new_value")]⟩ :=
  ⟨rfl, by decide,
    (empty_skip_list_tags_block (goRegexp Regexp.unmodelled) (SampleTag.methods Unit)
      Block.methods ⟨[], []⟩ [.plain "new_tag" "new_value"] newVolumeBlock () rfl
      (by decide)).1,
    (empty_skip_list_tags_block (goRegexp Regexp.unmodelled) (SampleTag.methods Unit)
      Block.methods ⟨[], []⟩ [.plain "new_tag" "new_value"] newVolumeBlock () rfl
      (by decide)).2.1,
    (empty_skip_list_tags_block (goRegexp Regexp.unmodelled) (SampleTag.methods Unit)
      Block.methods ⟨[], []⟩ [.plain "new_tag" "new_value"] newVolumeBlock () rfl
      (by decide)).2.2.2⟩

/-! ## The configuration of the tag group during tagging -/

theorem execLoop_eq {T B : Type} (R : Regexp) (key : String) (S : List String)
    (s : Store T B) :
    IsTagSkipped.execLoop R key S s = (s, IsTagSkipped.loop R key S) := by
  induction S with
  | nil => rfl
  | cons st sts ih =>
    rw [IsTagSkipped.execLoop, IsTagSkipped.loop]
    by_cases h : ((regexp.Match R (strings.ReplaceAll st '*' ".*") key).1
        || (regexp.Match R (strings.ReplaceAll st '*' ".*") key).2.isSome) = true
    · simp only [h, if_true]
    · simp only [h, if_false, Bool.false_eq_true, ih]

/-- `IsTagSkipped` on the store returns what `IsTagSkipped` returns and leaves
the store as it was. -/
theorem IsTagSkipped_exec_eq {T D B : Type} (R : Regexp) (I : ITag T D) (s : Store T B)
    (tag : T) : IsTagSkipped.exec R I s tag = (s, s.group.IsTagSkipped R I tag) :=
  execLoop_eq R (I.GetKey tag) s.SkippedTags s

/-- `SetTags` on the store does to the receiver what `SetTags` does, and
leaves the block and the calls as they were. -/
theorem SetTags_exec_eq {T D B : Type} (R : Regexp) (I : ITag T D) (ts : List T)
    (s : Store T B) :
    SetTags.exec R I ts s
      = ⟨(s.group.SetTags R I ts).tags, (s.group.SetTags R I ts).SkippedTags,
          s.block, s.calls⟩ := by
  induction ts generalizing s with
  | nil => rfl
  | cons tag rest ih =>
    rw [SetTags.exec, TagGroup.SetTags]
    simp only [IsTagSkipped_exec_eq]
    by_cases h : s.group.IsTagSkipped R I (I.Init tag) = true
    · simp only [h, Bool.not_true, Bool.false_eq_true, if_false]
      rw [ih]
    · rw [Bool.not_eq_true] at h
      simp only [h, Bool.not_false, if_true]
      rw [ih]
      rfl

theorem execStep_frame {T D B : Type} (I : ITag T D) (J : IBlock B T) (data : D)
    (p : Store T B × UpdateLocals T) (tag : T) :
    (UpdateBlockTags.execStep I J data p tag).1.tags = p.1.tags
      ∧ (UpdateBlockTags.execStep I J data p tag).1.SkippedTags = p.1.SkippedTags
      ∧ (UpdateBlockTags.execStep I J data p tag).1.block = p.1.block := by
  unfold UpdateBlockTags.execStep
  by_cases h : (I.CalculateValue tag data).2.isSome = true
  · simp only [h, if_true, and_self]
  · simp only [h, if_false, Bool.false_eq_true, and_self]

theorem execFold_frame {T D B : Type} (I : ITag T D) (J : IBlock B T) (data : D)
    (tags : List T) (p : Store T B × UpdateLocals T) :
    (tags.foldl (UpdateBlockTags.execStep I J data) p).1.tags = p.1.tags
      ∧ (tags.foldl (UpdateBlockTags.execStep I J data) p).1.SkippedTags = p.1.SkippedTags
      ∧ (tags.foldl (UpdateBlockTags.execStep I J data) p).1.block = p.1.block := by
  induction tags generalizing p with
  | nil => exact ⟨rfl, rfl, rfl⟩
  | cons tag rest ih =>
    rw [List.foldl_cons]
    obtain ⟨h1, h2, h3⟩ := ih (UpdateBlockTags.execStep I J data p tag)
    obtain ⟨g1, g2, g3⟩ := execStep_frame I J data p tag
    exact ⟨h1.trans g1, h2.trans g2, h3.trans g3⟩

/-- The loop of `UpdateBlockTags` on the store computes the local variables and
the calls that the loop of `UpdateBlockTags` computes. -/
theorem execFold_eq {T D B : Type} (I : ITag T D) (J : IBlock B T) (data : D)
    (tags : List T) (p : Store T B × UpdateLocals T) (u : UpdateState T)
    (hn : p.2.newTags = u.newTags) (he : p.2.err = u.err) (base : List (Call T))
    (hc : p.1.calls = base ++ u.calls) :
    (tags.foldl (UpdateBlockTags.execStep I J data) p).2.newTags
        = (tags.foldl (UpdateBlockTags.step I J p.1.block data) u).newTags
      ∧ (tags.foldl (UpdateBlockTags.execStep I J data) p).2.err
        = (tags.foldl (UpdateBlockTags.step I J p.1.block data) u).err
      ∧ (tags.foldl (UpdateBlockTags.execStep I J data) p).1.calls
        = base ++ (tags.foldl (UpdateBlockTags.step I J p.1.block data) u).calls := by
  induction tags generalizing p u with
  | nil => exact ⟨hn, he, hc⟩
  | cons tag rest ih =>
    rw [List.foldl_cons, List.foldl_cons]
    have hb : (UpdateBlockTags.execStep I J data p tag).1.block = p.1.block :=
      (execStep_frame I J data p tag).2.2
    have := ih (UpdateBlockTags.execStep I J data p tag)
      (UpdateBlockTags.step I J p.1.block data u tag)
      (by simp [UpdateBlockTags.execStep, UpdateBlockTags.step, hn])
      (by simp [UpdateBlockTags.execStep, UpdateBlockTags.step])
      (by
        unfold UpdateBlockTags.execStep UpdateBlockTags.step
        by_cases h : (I.CalculateValue tag data).2.isSome = true
        · simp [h, hc]
        · simp [h, hc])
    rw [hb] at this
    exact this

/-- `UpdateBlockTags` on the store returns the error, leaves the block and
makes the calls of `UpdateBlockTags`. -/
theorem UpdateBlockTags_exec_eq {T D B : Type} (I : ITag T D) (J : IBlock B T)
    (s : Store T B) (data : D) :
    (UpdateBlockTags.exec I J s data).2 = (s.group.UpdateBlockTags I J s.block data).err
      ∧ (UpdateBlockTags.exec I J s data).1.block
        = (s.group.UpdateBlockTags I J s.block data).block
      ∧ (UpdateBlockTags.exec I J s data).1.calls
        = s.calls ++ (s.group.UpdateBlockTags I J s.block data).calls := by
  obtain ⟨h1, h2, h3⟩ := execFold_eq I J data s.tags (s, ⟨[], none, none⟩) ⟨[], none, []⟩
    rfl rfl s.calls (by simp)
  obtain ⟨-, -, f3⟩ := execFold_frame I J data s.tags (s, ⟨[], none, none⟩)
  simp only at h1 h2 h3 f3
  unfold UpdateBlockTags.exec TagGroup.UpdateBlockTags
  simp only [GetTags.exec, Store.group, TagGroup.GetTags]
  refine ⟨h2, ?_, ?_⟩
  · rw [f3, h1]
  · rw [h3, h1, List.append_assoc]

theorem call_SkippedTags {T D B : Type} (R : Regexp) (I : ITag T D) (J : IBlock B T)
    (s : Store T B) (m : Method T D) :
    (s.call R I J m).SkippedTags = s.SkippedTags := by
  cases m with
  | SetTags tags =>
    show (SetTags.exec R I tags s).SkippedTags = s.SkippedTags
    rw [SetTags_exec_eq]
    exact SetTags_SkippedTags R I tags s.group
  | GetTags => rfl
  | IsTagSkipped tag =>
    show (IsTagSkipped.exec R I s tag).1.SkippedTags = s.SkippedTags
    rw [IsTagSkipped_exec_eq]
  | UpdateBlockTags data =>
    exact (execFold_frame I J data s.tags (s, ⟨[], none, none⟩)).2.1

theorem call_tags_of_not_SetTags {T D B : Type} (R : Regexp) (I : ITag T D) (J : IBlock B T)
    (s : Store T B) (m : Method T D) (h : m.isSetTags = false) :
    (s.call R I J m).tags = s.tags := by
  cases m with
  | SetTags tags => simp [Method.isSetTags] at h
  | GetTags => rfl
  | IsTagSkipped tag =>
    show (IsTagSkipped.exec R I s tag).1.tags = s.tags
    rw [IsTagSkipped_exec_eq]
  | UpdateBlockTags data =>
    exact (execFold_frame I J data s.tags (s, ⟨[], none, none⟩)).1

/-- C11: on the memory that the methods can reach, `UpdateBlockTags` leaves
`t.tags` and `t.SkippedTags` as they were and changes the block by its one call
of `AddNewTags`; `IsTagSkipped` and `GetTags` leave the whole store as it was;
`SetTags` leaves `t.SkippedTags` and the block as they were; so over any
sequence of calls of these methods `SkippedTags` stays the same, and the
registered tags stay the same while `SetTags` is not called. -/
theorem configuration_is_read_only {T D B : Type} (R : Regexp) (I : ITag T D)
    (J : IBlock B T) (s : Store T B) :
    (∀ data, (UpdateBlockTags.exec I J s data).1.tags = s.tags
        ∧ (UpdateBlockTags.exec I J s data).1.SkippedTags = s.SkippedTags
        ∧ (UpdateBlockTags.exec I J s data).1.block
          = J.AddNewTags s.block (s.tags.map (fun tag => (I.CalculateValue tag data).1))
        ∧ addedTags (UpdateBlockTags.exec I J s data).1.calls
          = addedTags s.calls ++ [s.tags.map (fun tag => (I.CalculateValue tag data).1)])
      ∧ (∀ tag, (IsTagSkipped.exec R I s tag).1 = s)
      ∧ (GetTags.exec s).1 = s
      ∧ (∀ tags, (SetTags.exec R I tags s).SkippedTags = s.SkippedTags
          ∧ (SetTags.exec R I tags s).block = s.block)
      ∧ (∀ ms : List (Method T D),
          (ms.foldl (Store.call R I J) s).SkippedTags = s.SkippedTags
          ∧ ((∀ m ∈ ms, m.isSetTags = false) →
              (ms.foldl (Store.call R I J) s).tags = s.tags)) := by
  refine ⟨?_, ?_, rfl, ?_, ?_⟩
  · intro data
    obtain ⟨f1, f2, -⟩ := execFold_frame I J data s.tags (s, ⟨[], none, none⟩)
    obtain ⟨-, h2, h3⟩ := UpdateBlockTags_exec_eq I J s data
    refine ⟨f1, f2, ?_, ?_⟩
    · rw [h2]
      simp [TagGroup.UpdateBlockTags, foldl_newTags, Store.group, TagGroup.GetTags]
    · rw [h3, addedTags_append, UpdateBlockTags_added]
      rfl
  · intro tag
    rw [IsTagSkipped_exec_eq]
  · intro tags
    rw [SetTags_exec_eq]
    exact ⟨SetTags_SkippedTags R I tags s.group, rfl⟩
  · intro ms
    induction ms using List.reverseRecOn with
    | nil => exact ⟨rfl, fun _ => rfl⟩
    | append_singleton ms m ih =>
      rw [List.foldl_append, List.foldl_cons, List.foldl_nil]
      refine ⟨by rw [call_SkippedTags, ih.1], fun h => ?_⟩
      rw [call_tags_of_not_SetTags R I J _ m (h m (by simp))]
      exact ih.2 (fun x hx => h x (by simp [hx]))

/-- C11 at a concrete input: the group has `env` registered and the skip list
`git_*`; `UpdateBlockTags` on the block `NewVolume` leaves both as they were
and hands the block the tag `env`. -/
theorem configuration_is_read_only_witness :
    (UpdateBlockTags.exec (SampleTag.methods Unit) Block.methods
        (⟨[.plain "env" "prod"], ["git_*"], newVolumeBlock, []⟩ : Store SampleTag Block)
        ()).1.tags = [.plain "env" "prod"]
      ∧ (UpdateBlockTags.exec (SampleTag.methods Unit) Block.methods
        (⟨[.plain "env" "prod"], ["git_*"], newVolumeBlock, []⟩ : Store SampleTag Block)
        ()).1.SkippedTags = ["git_*"]
      ∧ (UpdateBlockTags.exec (SampleTag.methods Unit) Block.methods
        (⟨[.plain "env" "prod"], ["git_*"], newVolumeBlock, []⟩ : Store SampleTag Block)
        ()).1.block.NewTags = [some (.plain "env" "prod")] :=
  ⟨((configuration_is_read_only (goRegexp Regexp.unmodelled) (SampleTag.methods Unit)
      Block.methods ⟨[.plain "env" "prod"], ["git_*"], newVolumeBlock, []⟩).1 ()).1,
    ((configuration_is_read_only (goRegexp Regexp.unmodelled) (SampleTag.methods Unit)
      Block.methods ⟨[.plain "env" "prod"], ["git_*"], newVolumeBlock, []⟩).1 ()).2.1,
    by decide⟩

/-! ## The skip list as a set of patterns -/

theorem loop_append (R : Regexp) (key : String) (P Q : List String) :
    IsTagSkipped.loop R key (P ++ Q)
      = (IsTagSkipped.loop R key P || IsTagSkipped.loop R key Q) := by
  rw [Bool.eq_iff_iff, Bool.or_eq_true]
  simp only [loop_eq_true_iff, List.mem_append]
  constructor
  · rintro ⟨st, hP | hQ, h⟩
    · exact Or.inl ⟨st, hP, h⟩
    · exact Or.inr ⟨st, hQ, h⟩
  · rintro (⟨st, hP, h⟩ | ⟨st, hQ, h⟩)
    · exact ⟨st, Or.inl hP, h⟩
    · exact ⟨st, Or.inr hQ, h⟩

theorem loop_congr_mem (R : Regexp) (key : String) (P Q : List String)
    (h : ∀ st, st ∈ P ↔ st ∈ Q) :
    IsTagSkipped.loop R key P = IsTagSkipped.loop R key Q := by
  rw [Bool.eq_iff_iff]
  simp only [loop_eq_true_iff, h]

/-- C14: `IsTagSkipped` with the skip list `P ++ Q` is the disjunction of
`IsTagSkipped` with `P` and with `Q`; two skip lists with the same patterns, in
any order and number, skip the same tags; a tag skipped with `P` stays skipped
when patterns are added; and with the empty skip list no tag is skipped. -/
theorem IsTagSkipped_is_disjunction {T D : Type} (R : Regexp) (I : ITag T D)
    (tags : List T) (P Q : List String) (tag : T) :
    (⟨tags, P ++ Q⟩ : TagGroup T).IsTagSkipped R I tag
        = ((⟨tags, P⟩ : TagGroup T).IsTagSkipped R I tag
            || (⟨tags, Q⟩ : TagGroup T).IsTagSkipped R I tag)
      ∧ ((∀ st, st ∈ P ↔ st ∈ Q) →
          (⟨tags, P⟩ : TagGroup T).IsTagSkipped R I tag
            = (⟨tags, Q⟩ : TagGroup T).IsTagSkipped R I tag)
      ∧ ((⟨tags, P⟩ : TagGroup T).IsTagSkipped R I tag = true →
          (⟨tags, P ++ Q⟩ : TagGroup T).IsTagSkipped R I tag = true
            ∧ (⟨tags, Q ++ P⟩ : TagGroup T).IsTagSkipped R I tag = true)
      ∧ (⟨tags, []⟩ : TagGroup T).IsTagSkipped R I tag = false := by
  refine ⟨loop_append R _ P Q, loop_congr_mem R _ P Q, ?_, rfl⟩
  intro h
  unfold TagGroup.IsTagSkipped at h ⊢
  simp only at h ⊢
  rw [loop_append, loop_append, h]
  simp

/-- C14 at a concrete input: the skip lists `env`, `git_*` and `git_*`, `env`,
`git_*` both skip the tag `git_org`, which the pattern `git_*` skips alone. -/
theorem IsTagSkipped_is_disjunction_witness :
    (∀ st, st ∈ ["env", "git_*"] ↔ st ∈ ["git_*", "env", "git_*"])
      ∧ (⟨[], ["git_*"]⟩ : TagGroup SampleTag).IsTagSkipped (goRegexp Regexp.unmodelled)
          (SampleTag.methods Unit) (.plain "git_org" "acme") = true
      ∧ (⟨[], ["env", "git_*"]⟩ : TagGroup SampleTag).IsTagSkipped
          (goRegexp Regexp.unmodelled) (SampleTag.methods Unit) (.plain "git_org" "acme")
        = (⟨[], ["git_*", "env", "git_*"]⟩ : TagGroup SampleTag).IsTagSkipped
          (goRegexp Regexp.unmodelled) (SampleTag.methods Unit) (.plain "git_org" "acme")
      ∧ (⟨[], ["git_*"] ++ ["env"]⟩ : TagGroup SampleTag).IsTagSkipped
          (goRegexp Regexp.unmodelled) (SampleTag.methods Unit) (.plain "git_org" "acme")
        = true :=
  ⟨by simp [or_comm], by decide,
    (IsTagSkipped_is_disjunction (goRegexp Regexp.unmodelled) (SampleTag.methods Unit) []
      ["env", "git_*"] ["git_*", "env", "git_*"] (.plain "git_org" "acme")).2.1
      (by simp [or_comm]),
    ((IsTagSkipped_is_disjunction (goRegexp Regexp.unmodelled) (SampleTag.methods Unit) []
      ["git_*"] ["env"] (.plain "git_org" "acme")).2.2.1 (by decide)).1⟩

/-! ## Patterns that skip every tag -/

/-- The empty pattern and the pattern `*` match every key. -/
theorem loop_catch_all (rest : Regexp) (S : List String) (h : "" ∈ S ∨ "*" ∈ S)
    (key : String) : IsTagSkipped.loop (goRegexp rest) key S = true := by
  rw [loop_eq_true_iff]
  rcases h with h | h
  · refine ⟨"", h, Or.inl ?_⟩
    rw [Match_literalOrStar rest "" key (by decide)]
    show matchAnywhere ("".data.map itemOfChar) key.data = true
    rw [matchAnywhere_glob]
    exact ⟨[], [], key.data, by simp, Glob.nil⟩
  · refine ⟨"*", h, Or.inl ?_⟩
    rw [Match_literalOrStar rest "*" key (by decide)]
    show matchAnywhere ("*".data.map itemOfChar) key.data = true
    rw [matchAnywhere_glob]
    exact ⟨[], [], key.data, by simp, Glob.star (w := []) (by simp) Glob.nil⟩

/-- C15: if the skip list contains the empty pattern or the pattern `*`, then
`IsTagSkipped` holds of every tag, whatever its key, the empty key included,
and `SetTags` registers nothing. -/
theorem catch_all_pattern_skips_everything {T D : Type} (rest : Regexp) (I : ITag T D)
    (t : TagGroup T) (h : "" ∈ t.SkippedTags ∨ "*" ∈ t.SkippedTags) :
    (∀ tag, t.IsTagSkipped (goRegexp rest) I tag = true)
      ∧ (∀ tag, I.GetKey tag = "" → t.IsTagSkipped (goRegexp rest) I tag = true)
      ∧ (∀ ts, (t.SetTags (goRegexp rest) I ts).GetTags = t.GetTags) := by
  have hall : ∀ tag, t.IsTagSkipped (goRegexp rest) I tag = true :=
    fun tag => loop_catch_all rest t.SkippedTags h (I.GetKey tag)
  refine ⟨hall, fun tag _ => hall tag, ?_⟩
  intro ts
  rw [SetTags_eq]
  have hfil : (ts.map I.Init).filter
      (fun tag => !IsTagSkipped.loop (goRegexp rest) (I.GetKey tag) t.SkippedTags) = [] := by
    rw [List.filter_eq_nil_iff]
    intro tag _
    have := hall tag
    unfold TagGroup.IsTagSkipped at this
    simp [this]
  simp [TagGroup.GetTags, hfil]

/-- C15 at concrete inputs: the skip list `*` skips the tag with the empty key,
and with the skip list of the empty pattern `SetTags` registers nothing. -/
theorem catch_all_pattern_skips_everything_witness :
    ("" ∈ (⟨[], ["*"]⟩ : TagGroup SampleTag).SkippedTags
        ∨ "*" ∈ (⟨[], ["*"]⟩ : TagGroup SampleTag).SkippedTags)
      ∧ (⟨[], ["*"]⟩ : TagGroup SampleTag).IsTagSkipped (goRegexp Regexp.unmodelled)
          (SampleTag.methods Unit) (.plain "" "v") = true
      ∧ ((⟨[], [""]⟩ : TagGroup SampleTag).SetTags (goRegexp Regexp.unmodelled)
          (SampleTag.methods Unit) [.plain "new_tag" "new_value", .plain "" "v"]).GetTags
        = [] :=
  ⟨Or.inr (by decide),
    (catch_all_pattern_skips_everything Regexp.unmodelled (SampleTag.methods Unit)
      ⟨[], ["*"]⟩ (Or.inr (by decide))).1 (.plain "" "v"),
    (catch_all_pattern_skips_everything Regexp.unmodelled (SampleTag.methods Unit)
      ⟨[], [""]⟩ (Or.inl (by decide))).2.2 [.plain "new_tag" "new_value", .plain "" "v"]⟩

/-! ## `SetTags`, call after call -/

/-- C16: `SetTags(xs)` followed by `SetTags(ys)` leaves the group that
`SetTags(xs ++ ys)` leaves; the tags registered before stay, in their order, at
the front of the registered list; and tags are not de-duplicated, `SetTags(xs)`
called twice registers the tags of `xs` that are not skipped twice. -/
theorem SetTags_appends_and_composes {T D : Type} (R : Regexp) (I : ITag T D)
    (t : TagGroup T) (xs ys : List T) :
    (t.SetTags R I xs).SetTags R I ys = t.SetTags R I (xs ++ ys)
      ∧ (∃ added, (t.SetTags R I xs).GetTags = t.GetTags ++ added)
      ∧ ((t.SetTags R I xs).SetTags R I xs).GetTags
        = t.GetTags
          ++ (xs.map I.Init).filter (fun tag => !t.IsTagSkipped R I tag)
          ++ (xs.map I.Init).filter (fun tag => !t.IsTagSkipped R I tag) := by
  have hcomp : ∀ zs : List T,
      (t.SetTags R I xs).SetTags R I zs = t.SetTags R I (xs ++ zs) := by
    intro zs
    simp only [SetTags_eq, List.map_append, List.filter_append, List.append_assoc]
  refine ⟨hcomp ys, ⟨_, by rw [SetTags_eq]; rfl⟩, ?_⟩
  rw [hcomp xs, SetTags_eq]
  simp only [TagGroup.GetTags, TagGroup.IsTagSkipped, List.map_append, List.filter_append,
    List.append_assoc]

/-- C16 at a concrete input: under the skip list `git_*`, `SetTags` called twice
with the tags `env` and `git_org` registers `env` twice. -/
theorem SetTags_appends_and_composes_witness :
    (((⟨[.plain "team" "a"], ["git_*"]⟩ : TagGroup SampleTag).SetTags
        (goRegexp Regexp.unmodelled) (SampleTag.methods Unit)
        [.plain "env" "prod", .plain "git_org" "acme"]).SetTags
        (goRegexp Regexp.unmodelled) (SampleTag.methods Unit)
        [.plain "env" "prod", .plain "git_org" "acme"]).GetTags
      = [.plain "team" "a", .plain "env" "prod", .plain "env" "prod"] :=
  ((SetTags_appends_and_composes (goRegexp Regexp.unmodelled) (SampleTag.methods Unit)
    ⟨[.plain "team" "a"], ["git_*"]⟩ [.plain "env" "prod", .plain "git_org" "acme"]
    []).2.2).trans (by decide)

/-! ## The merge policy -/

theorem hasKey_iff {T : Type} (key : T → String) (l : List T) (n : T) :
    hasKey key l n = true ↔ key n ∈ l.map key := by
  simp only [hasKey, List.any_eq_true, beq_iff_eq, List.mem_map]

theorem mergeTag_of_mem {T : Type} (key : T → String) (l : List T) (n : T)
    (h : key n ∈ l.map key) :
    mergeTag key l n = l.map (fun e => if key e = key n then n else e) := by
  unfold mergeTag
  rw [if_pos ((hasKey_iff key l n).mpr h)]

theorem mergeTag_of_not_mem {T : Type} (key : T → String) (l : List T) (n : T)
    (h : key n ∉ l.map key) : mergeTag key l n = l ++ [n] := by
  unfold mergeTag
  rw [if_neg (fun hk => h ((hasKey_iff key l n).mp hk))]

theorem map_replace_keys {T : Type} (key : T → String) (l : List T) (n : T) :
    (l.map (fun e => if key e = key n then n else e)).map key = l.map key := by
  rw [List.map_map]
  apply List.map_congr_left
  intro e _
  by_cases h : key e = key n <;> simp [h]

theorem map_replace_of_not_mem {T : Type} (key : T → String) (l : List T) (n : T)
    (h : key n ∉ l.map key) : l.map (fun e => if key e = key n then n else e) = l := by
  conv_rhs => rw [← List.map_id l]
  apply List.map_congr_left
  intro e he
  have : key e ≠ key n := fun hk => h (hk ▸ List.mem_map_of_mem key he)
  simp [this]

theorem mergeTags_snoc {T : Type} (key : T → String) (E N : List T) (n : T) :
    mergeTags key E (N ++ [n]) = mergeTag key (mergeTags key E N) n := by
  simp [mergeTags, List.foldl_append]

theorem mergeTags_append {T : Type} (key : T → String) (E N M : List T) :
    mergeTags key E (N ++ M) = mergeTags key (mergeTags key E N) M := by
  simp [mergeTags, List.foldl_append]

theorem overwrite_snoc {T : Type} (key : T → String) (N : List T) (n e : T) :
    overwrite key (N ++ [n]) e
      = if key (overwrite key N e) = key n then n else overwrite key N e := by
  simp [overwrite, List.foldl_append]

theorem key_overwrite {T : Type} (key : T → String) (N : List T) (e : T) :
    key (overwrite key N e) = key e := by
  induction N using List.reverseRecOn with
  | nil => rfl
  | append_singleton N n ih =>
    rw [overwrite_snoc]
    by_cases h : key (overwrite key N e) = key n
    · rw [if_pos h, ← h, ih]
    · rw [if_neg h, ih]

theorem overwrite_of_no_key {T : Type} (key : T → String) (N : List T) (e : T)
    (h : ∀ n ∈ N, key n ≠ key e) : overwrite key N e = e := by
  induction N using List.reverseRecOn with
  | nil => rfl
  | append_singleton N n ih =>
    have ih' := ih (fun x hx => h x (by simp [hx]))
    rw [overwrite_snoc, ih']
    have : key e ≠ key n := fun hk => h n (by simp) hk.symm
    rw [if_neg this]

theorem overwrite_of_nodup {T : Type} (key : T → String) (N : List T) (e n : T)
    (hN : (N.map key).Nodup) (hn : n ∈ N) (hk : key n = key e) :
    overwrite key N e = n := by
  induction N using List.reverseRecOn with
  | nil => simp at hn
  | append_singleton N m ih =>
    rw [List.map_append, List.nodup_append] at hN
    obtain ⟨hN1, -, hdis⟩ := hN
    rw [overwrite_snoc]
    rcases List.mem_append.mp hn with h | h
    · have hne : key (overwrite key N e) ≠ key m := by
        rw [key_overwrite key N e, ← hk]
        intro heq
        exact hdis (List.mem_map_of_mem key h) (by simp [heq])
      rw [if_neg hne]
      exact ih hN1 h
    · have hm : n = m := by simpa using h
      subst hm
      rw [if_pos (by rw [key_overwrite key N e, hk])]

theorem key_mem_mergeTags {T : Type} (key : T → String) (E N : List T) :
    ∀ x ∈ mergeTags key E N, key x ∈ E.map key ∨ key x ∈ N.map key := by
  induction N using List.reverseRecOn with
  | nil =>
    intro x hx
    exact Or.inl (List.mem_map_of_mem key hx)
  | append_singleton N n ih =>
    intro x hx
    rw [mergeTags_snoc] at hx
    by_cases hmem : key n ∈ (mergeTags key E N).map key
    · rw [mergeTag_of_mem key _ n hmem] at hx
      obtain ⟨y, hy, hxy⟩ := List.mem_map.mp hx
      by_cases hk : key y = key n
      · rw [if_pos hk] at hxy
        rw [← hxy]
        exact Or.inr (by simp)
      · rw [if_neg hk] at hxy
        rw [← hxy]
        rcases ih y hy with h | h
        · exact Or.inl h
        · exact Or.inr (by simp only [List.map_append, List.mem_append]; exact Or.inl h)
    · rw [mergeTag_of_not_mem key _ n hmem] at hx
      rcases List.mem_append.mp hx with h | h
      · rcases ih x h with h | h
        · exact Or.inl h
        · exact Or.inr (by simp only [List.map_append, List.mem_append]; exact Or.inl h)
      · have hxn : x = n := by simpa using h
        rw [hxn]
        exact Or.inr (by simp)

/-- The merged list: the existing tags at their places, each overwritten by
the new tags of its key, and after them the merge of the new tags whose key no
existing tag has. -/
theorem mergeTags_eq {T : Type} (key : T → String) (E N : List T) :
    mergeTags key E N
      = E.map (overwrite key N)
        ++ mergeTags key [] (N.filter (fun n => !hasKey key E n)) := by
  induction N using List.reverseRecOn with
  | nil =>
    simp only [mergeTags, List.foldl_nil, List.filter_nil, List.append_nil]
    conv_lhs => rw [← List.map_id E]
    apply List.map_congr_left
    intro e _
    rfl
  | append_singleton N n ih =>
    have hG : ∀ x ∈ mergeTags key [] (N.filter (fun n => !hasKey key E n)),
        key x ∉ E.map key := by
      intro x hx hxE
      rcases key_mem_mergeTags key [] _ x hx with h | h
      · simp at h
      · obtain ⟨y, hy, hyx⟩ := List.mem_map.mp h
        have hy2 := (List.mem_filter.mp hy).2
        rw [Bool.not_eq_true', ← Bool.not_eq_true, hasKey_iff, hyx] at hy2
        exact hy2 hxE
    have hmapE : (E.map (overwrite key N)).map key = E.map key := by
      rw [List.map_map]
      apply List.map_congr_left
      intro e _
      exact key_overwrite key N e
    have hover : E.map (overwrite key (N ++ [n]))
        = (E.map (overwrite key N)).map (fun e => if key e = key n then n else e) := by
      rw [List.map_map]
      apply List.map_congr_left
      intro e _
      rw [overwrite_snoc]
      rfl
    rw [mergeTags_snoc, ih, List.filter_append]
    by_cases hE : key n ∈ E.map key
    · have hfil : [n].filter (fun n => !hasKey key E n) = [] := by
        simp [(hasKey_iff key E n).mpr hE]
      have hGn : key n ∉ (mergeTags key [] (N.filter (fun n => !hasKey key E n))).map key := by
        intro h
        obtain ⟨x, hx, hxk⟩ := List.mem_map.mp h
        exact hG x hx (hxk ▸ hE)
      rw [hfil, List.append_nil, mergeTag_of_mem key _ n
        (by rw [List.map_append, List.mem_append, hmapE]; exact Or.inl hE),
        List.map_append, map_replace_of_not_mem key _ n hGn, hover]
    · have hfil : [n].filter (fun n => !hasKey key E n) = [n] := by
        have : hasKey key E n = false := by
          rw [← Bool.not_eq_true, hasKey_iff]
          exact hE
        simp [this]
      have hEn : key n ∉ (E.map (overwrite key N)).map key := by
        rw [hmapE]
        exact hE
      rw [hfil, mergeTags_snoc, hover, map_replace_of_not_mem key _ n hEn]
      by_cases hGn : key n ∈ (mergeTags key [] (N.filter (fun n => !hasKey key E n))).map key
      · rw [mergeTag_of_mem key _ n
          (by rw [List.map_append, List.mem_append]; exact Or.inr hGn),
          mergeTag_of_mem key _ n hGn, List.map_append,
          map_replace_of_not_mem key _ n hEn]
      · rw [mergeTag_of_not_mem key _ n
          (by rw [List.map_append, List.mem_append]; exact fun h => h.elim hEn hGn),
          mergeTag_of_not_mem key _ n hGn, List.append_assoc]
theorem keys_mergeTag {T : Type} (key : T → String) (l : List T) (n : T) :
    (mergeTag key l n).map key
      = if key n ∈ l.map key then l.map key else l.map key ++ [key n] := by
  by_cases h : key n ∈ l.map key
  · rw [if_pos h, mergeTag_of_mem key l n h, map_replace_keys]
  · rw [if_neg h, mergeTag_of_not_mem key l n h, List.map_append]
    rfl

theorem key_mem_of_mem_new {T : Type} (key : T → String) (E N : List T) :
    ∀ n ∈ N, key n ∈ (mergeTags key E N).map key := by
  induction N using List.reverseRecOn with
  | nil => simp
  | append_singleton N m ih =>
    intro n hn
    rw [mergeTags_snoc, keys_mergeTag]
    by_cases hm : key m ∈ (mergeTags key E N).map key
    · rw [if_pos hm]
      rcases List.mem_append.mp hn with h | h
      · exact ih n h
      · have hnm : n = m := by simpa using h
        rw [hnm]
        exact hm
    · rw [if_neg hm, List.mem_append]
      rcases List.mem_append.mp hn with h | h
      · exact Or.inl (ih n h)
      · have hnm : n = m := by simpa using h
        rw [hnm]
        exact Or.inr (by simp)

/-- A tag of the merged list is left as it is when the new tags are written
over it once more. -/
theorem overwrite_mergeTags {T : Type} (key : T → String) (E N : List T) :
    ∀ x ∈ mergeTags key E N, overwrite key N x = x := by
  induction N using List.reverseRecOn with
  | nil =>
    intro x _
    rfl
  | append_singleton N n ih =>
    intro x hx
    rw [mergeTags_snoc] at hx
    rw [overwrite_snoc, key_overwrite key N x]
    by_cases hmem : key n ∈ (mergeTags key E N).map key
    · rw [mergeTag_of_mem key _ n hmem] at hx
      obtain ⟨y, hy, hxy⟩ := List.mem_map.mp hx
      by_cases hk : key y = key n
      · rw [if_pos hk] at hxy
        rw [← hxy, if_pos rfl]
      · rw [if_neg hk] at hxy
        rw [← hxy, if_neg hk]
        exact ih y hy
    · rw [mergeTag_of_not_mem key _ n hmem] at hx
      rcases List.mem_append.mp hx with h | h
      · have hk : key x ≠ key n := fun hk => hmem (hk ▸ List.mem_map_of_mem key h)
        rw [if_neg hk]
        exact ih x h
      · have hxn : x = n := by simpa using h
        rw [hxn, if_pos rfl]

theorem mergeTags_idem {T : Type} (key : T → String) (E N : List T) :
    mergeTags key (mergeTags key E N) N = mergeTags key E N := by
  have hfil : N.filter (fun n => !hasKey key (mergeTags key E N) n) = [] := by
    rw [List.filter_eq_nil_iff]
    intro n hn
    have := (hasKey_iff key (mergeTags key E N) n).mpr (key_mem_of_mem_new key E N n hn)
    simp [this]
  have hmap : (mergeTags key E N).map (overwrite key N) = mergeTags key E N := by
    conv_rhs => rw [← List.map_id (mergeTags key E N)]
    apply List.map_congr_left
    intro x hx
    exact overwrite_mergeTags key E N x hx
  rw [mergeTags_eq key (mergeTags key E N) N, hfil, hmap]
  simp [mergeTags]

theorem nodup_keys_mergeTags {T : Type} (key : T → String) (E N : List T)
    (hE : (E.map key).Nodup) : ((mergeTags key E N).map key).Nodup := by
  induction N using List.reverseRecOn with
  | nil => exact hE
  | append_singleton N n ih =>
    rw [mergeTags_snoc, keys_mergeTag]
    by_cases hm : key n ∈ (mergeTags key E N).map key
    · rw [if_pos hm]
      exact ih
    · rw [if_neg hm]
      exact List.Nodup.append ih (List.nodup_singleton _) (by simpa using hm)

theorem mergeTags_of_new_keys {T : Type} (key : T → String) (M E : List T)
    (hM : (M.map key).Nodup) (hdis : ∀ m ∈ M, key m ∉ E.map key) :
    mergeTags key E M = E ++ M := by
  induction M generalizing E with
  | nil => simp [mergeTags]
  | cons m M ih =>
    rw [List.map_cons, List.nodup_cons] at hM
    have h1 : mergeTags key E (m :: M) = mergeTags key (mergeTag key E m) M := rfl
    rw [h1, mergeTag_of_not_mem key E m (hdis m (List.mem_cons_self _ _)), ih _ hM.2]
    · simp
    · intro x hx hmem
      rw [List.map_append, List.mem_append] at hmem
      rcases hmem with h | h
      · exact hdis x (List.mem_cons_of_mem _ hx) h
      · have hk : key x = key m := by simpa using h
        exact hM.1 (hk ▸ List.mem_map_of_mem key hx)

theorem overwrite_mem {T : Type} (key : T → String) (N : List T) (e : T)
    (h : ∃ n ∈ N, key n = key e) : overwrite key N e ∈ N := by
  induction N using List.reverseRecOn with
  | nil => simp at h
  | append_singleton N m ih =>
    rw [overwrite_snoc, key_overwrite key N e]
    by_cases hk : key e = key m
    · rw [if_pos hk]
      simp
    · rw [if_neg hk]
      obtain ⟨n, hn, hnk⟩ := h
      rcases List.mem_append.mp hn with hn | hn
      · exact List.mem_append_left _ (ih ⟨n, hn, hnk⟩)
      · have hnm : n = m := by simpa using hn
        rw [hnm] at hnk
        exact absurd hnk.symm hk

/-- C12: after merging the new tags `N` into the existing tags `E`, every
existing tag stands at its place, overwritten by a new tag of its key (by the
new tag of its key, the keys of `N` being distinct) and unchanged when no new
tag has its key; the new tags whose key no existing tag has follow all existing
tags in registration order; merging `N` a second time, or merging `N ++ N`,
yields the list of merging it once; and distinct keys stay distinct. -/
theorem merge_policy {T : Type} (key : T → String) (E N : List T) :
    mergeTags key E N
        = E.map (overwrite key N) ++ mergeTags key [] (N.filter (fun n => !hasKey key E n))
      ∧ (∀ e, key (overwrite key N e) = key e)
      ∧ (∀ e, (∀ n ∈ N, key n ≠ key e) → overwrite key N e = e)
      ∧ (∀ e, (∃ n ∈ N, key n = key e) → overwrite key N e ∈ N)
      ∧ ((N.map key).Nodup →
          (∀ e n, n ∈ N → key n = key e → overwrite key N e = n)
          ∧ mergeTags key E N
            = E.map (overwrite key N) ++ N.filter (fun n => !hasKey key E n))
      ∧ mergeTags key (mergeTags key E N) N = mergeTags key E N
      ∧ mergeTags key E (N ++ N) = mergeTags key E N
      ∧ ((E.map key).Nodup → ((mergeTags key E N).map key).Nodup) := by
  refine ⟨mergeTags_eq key E N, key_overwrite key N, overwrite_of_no_key key N,
    overwrite_mem key N, ?_, mergeTags_idem key E N, ?_, nodup_keys_mergeTags key E N⟩
  · intro hN
    refine ⟨fun e n hn hk => overwrite_of_nodup key N e n hN hn hk, ?_⟩
    have hsub : ((N.filter (fun n => !hasKey key E n)).map key).Nodup :=
      hN.sublist (List.Sublist.map key (List.filter_sublist _))
    rw [mergeTags_eq key E N,
      mergeTags_of_new_keys key _ [] hsub (by simp), List.nil_append]
  · rw [mergeTags_append, mergeTags_idem]

/-- C12 at a concrete input: into the existing tags `MyTag=TagValue`,
`env=dev` the new tags `new_tag=new_value`, `env=prod` are merged; `env` keeps
its place with the new value, `new_tag` follows, and a second merge of the same
new tags changes nothing. -/
theorem merge_policy_witness :
    mergeTags SampleTag.key [.plain "MyTag" "TagValue", .plain "env" "dev"]
        [.plain "new_tag" "new_value", .plain "env" "prod"]
        = [.plain "MyTag" "TagValue", .plain "env" "prod", .plain "new_tag" "new_value"]
      ∧ mergeTags SampleTag.key
          (mergeTags SampleTag.key [.plain "MyTag" "TagValue", .plain "env" "dev"]
            [.plain "new_tag" "new_value", .plain "env" "prod"])
          [.plain "new_tag" "new_value", .plain "env" "prod"]
        = [.plain "MyTag" "TagValue", .plain "env" "prod", .plain "new_tag" "new_value"] :=
  ⟨by decide,
    ((merge_policy SampleTag.key [.plain "MyTag" "TagValue", .plain "env" "dev"]
      [.plain "new_tag" "new_value", .plain "env" "prod"]).2.2.2.2.2.1).trans (by decide)⟩

/-! ## The line range mapper -/

theorem numberLines_bounds (n : Nat) (text : List String) :
    (numberLines n text).Pairwise (fun a b => a.1 < b.1)
      ∧ ∀ p ∈ numberLines n text, n ≤ p.1 := by
  induction text generalizing n with
  | nil => simp [numberLines]
  | cons l ls ih =>
    obtain ⟨h1, h2⟩ := ih (n + 1)
    constructor
    · rw [numberLines, List.pairwise_cons]
      exact ⟨fun p hp => Nat.lt_of_succ_le (h2 p hp), h1⟩
    · intro p hp
      rw [numberLines, List.mem_cons] at hp
      rcases hp with rfl | hp
      · exact Nat.le_refl _
      · exact Nat.le_of_succ_le (h2 p hp)

theorem afterToken_sublist (token : String) (ls : List (Nat × String)) (ind : Nat)
    (rest : List (Nat × String)) (h : afterToken token ls = some (ind, rest)) :
    List.Sublist rest ls := by
  induction ls with
  | nil => simp [afterToken] at h
  | cons p ps ih =>
    rw [afterToken] at h
    by_cases hc : containsChars token.data p.2.data = true
    · rw [if_pos hc] at h
      simp only [Option.some.injEq, Prod.mk.injEq] at h
      rw [← h.2]
      exact List.sublist_cons_self _ _
    · rw [if_neg hc] at h
      exact (ih h).trans (List.sublist_cons_self _ _)

theorem resourcesSection_sublist (token : String) (text : List String) :
    List.Sublist (resourcesSection token text) (numberLines 1 text) := by
  unfold resourcesSection
  cases h : afterToken token (numberLines 1 text) with
  | none => exact List.nil_sublist _
  | some r =>
    obtain ⟨ind, rest⟩ := r
    exact (List.takeWhile_sublist _).trans (afterToken_sublist token _ ind rest h)

theorem resourcesSection_bounds (token : String) (text : List String) :
    (resourcesSection token text).Pairwise (fun a b => a.1 < b.1)
      ∧ ∀ p ∈ resourcesSection token text, 1 ≤ p.1 :=
  ⟨(numberLines_bounds 1 text).1.sublist (resourcesSection_sublist token text),
    fun p hp => (numberLines_bounds 1 text).2 p ((resourcesSection_sublist token text).subset hp)⟩

theorem resourceKey_not_blank (line k : String) (h : resourceKey line = some k) :
    isBlank line = false := by
  unfold resourceKey at h
  by_cases hc : ':' ∈ line.data.dropWhile (fun c => c = ' ')
  · have hmem : ':' ∈ line.data := (List.dropWhile_sublist _).subset hc
    rw [← Bool.not_eq_true]
    intro hb
    unfold isBlank at hb
    rw [List.all_eq_true] at hb
    have := hb ':' hmem
    simp at this
  · rw [if_neg hc] at h
    exact absurd h (by simp)

theorem declaredResources_mem (sec : List (Nat × String)) (q : String × Nat)
    (h : q ∈ declaredResources sec) :
    ∃ line, (q.2, line) ∈ sec ∧ isBlank line = false ∧ resourceKey line = some q.1 := by
  unfold declaredResources at h
  cases hr : resourceIndent sec with
  | none => simp [hr] at h
  | some r =>
    simp only [hr, List.mem_filterMap] at h
    obtain ⟨p, hp, hq⟩ := h
    by_cases hi : indentation p.2 = r
    · rw [if_pos hi] at hq
      cases hk : resourceKey p.2 with
      | none => simp [hk] at hq
      | some k =>
        simp only [hk, Option.map_some', Option.some.injEq] at hq
        refine ⟨p.2, ?_, resourceKey_not_blank p.2 k hk, ?_⟩
        · rw [← hq]
          exact hp
        · rw [← hq, hk]
    · rw [if_neg hi] at hq
      exact absurd hq (by simp)

theorem declaredResources_pairwise (sec : List (Nat × String))
    (h : sec.Pairwise (fun a b => a.1 < b.1)) :
    (declaredResources sec).Pairwise (fun a b => a.2 < b.2) := by
  unfold declaredResources
  cases hr : resourceIndent sec with
  | none => exact List.Pairwise.nil
  | some r =>
    simp only
    refine List.Pairwise.filterMap _ ?_ h
    intro a a' haa b hb b' hb'
    by_cases hi : indentation a.2 = r
    · by_cases hi' : indentation a'.2 = r
      · simp only [hi, hi', if_true, Option.mem_def, Option.map_eq_some'] at hb hb'
        obtain ⟨_, _, rfl⟩ := hb
        obtain ⟨_, _, rfl⟩ := hb'
        exact haa
      · simp [hi'] at hb'
    · simp [hi] at hb

theorem le_getLast_of_pairwise (l : List (Nat × String)) (p x : Nat × String)
    (h : l.Pairwise (fun a b => a.1 < b.1)) (hp : l.getLast? = some p) (hx : x ∈ l) :
    x.1 ≤ p.1 := by
  obtain ⟨ys, rfl⟩ := List.getLast?_eq_some_iff.mp hp
  rw [List.pairwise_append] at h
  rcases List.mem_append.mp hx with hy | hy
  · exact Nat.le_of_lt (h.2.2 x hy p (by simp))
  · have : x = p := by simpa using hy
    rw [this]

theorem le_lastNonBlank (sec : List (Nat × String)) (h : sec.Pairwise (fun a b => a.1 < b.1))
    (x : Nat × String) (hx : x ∈ sec) (hb : isBlank x.2 = false) :
    x.1 ≤ lastNonBlank sec := by
  have hmem : x ∈ sec.filter (fun p => !isBlank p.2) := by
    rw [List.mem_filter]
    exact ⟨hx, by simp [hb]⟩
  unfold lastNonBlank
  cases hl : (sec.filter (fun p => !isBlank p.2)).getLast? with
  | none =>
    rw [List.getLast?_eq_none_iff] at hl
    rw [hl] at hmem
    simp at hmem
  | some p => exact le_getLast_of_pairwise _ p x (h.filter _) hl hmem

theorem spansFrom_starts (last : Nat) (starts : List (String × Nat)) :
    (spansFrom last starts).map (fun p => (p.1, p.2.Start)) = starts := by
  induction starts with
  | nil => rfl
  | cons p rest ih =>
    cases rest with
    | nil => rfl
    | cons q rest' =>
      rw [spansFrom, List.map_cons, ih]

theorem spansFrom_spec (last : Nat) (starts : List (String × Nat))
    (hs : starts.Pairwise (fun a b => a.2 < b.2)) (hl : ∀ p ∈ starts, p.2 ≤ last) :
    (∀ p ∈ spansFrom last starts, p.2.Start ≤ p.2.End)
      ∧ (spansFrom last starts).Pairwise (fun a b => a.2.End < b.2.Start)
      ∧ (spansFrom last starts).Chain' (fun a b => a.2.End + 1 = b.2.Start)
      ∧ (∀ p, (spansFrom last starts).getLast? = some p → p.2.End = last) := by
  induction starts with
  | nil => simp [spansFrom]
  | cons p rest ih =>
    cases rest with
    | nil =>
      simp only [spansFrom, List.mem_singleton, List.pairwise_cons, List.not_mem_nil,
        List.Pairwise.nil, List.chain'_singleton, List.getLast?_singleton, Option.some.injEq]
      refine ⟨?_, ⟨fun _ h => h.elim, trivial⟩, trivial, ?_⟩
      · rintro x rfl
        exact hl p (List.mem_singleton_self _)
      · rintro x rfl
        rfl
    | cons q rest' =>
      rw [List.pairwise_cons] at hs
      obtain ⟨hp, hrest⟩ := hs
      obtain ⟨ih1, ih2, ih3, ih4⟩ := ih hrest (fun x hx => hl x (List.mem_cons_of_mem _ hx))
      have hpq : p.2 < q.2 := hp q (List.mem_cons_self _ _)
      have hstart : ∀ b ∈ spansFrom last (q :: rest'), q.2 ≤ b.2.Start := by
        intro b hb
        have hmem : (b.1, b.2.Start) ∈ q :: rest' := by
          rw [← spansFrom_starts last (q :: rest')]
          exact List.mem_map_of_mem _ hb
        rcases List.mem_cons.mp hmem with h | h
        · rw [← h]
        · rw [List.pairwise_cons] at hrest
          exact Nat.le_of_lt (hrest.1 _ h)
      have hhead : ∃ e tl, spansFrom last (q :: rest') = (q.1, ⟨q.2, e⟩) :: tl := by
        cases rest' with
        | nil => exact ⟨_, _, rfl⟩
        | cons r rest'' => exact ⟨_, _, rfl⟩
      rw [spansFrom]
      refine ⟨?_, ?_, ?_, ?_⟩
      · intro x hx
        rcases List.mem_cons.mp hx with rfl | hx
        · show p.2 ≤ q.2 - 1
          omega
        · exact ih1 x hx
      · rw [List.pairwise_cons]
        refine ⟨fun b hb => ?_, ih2⟩
        have := hstart b hb
        show q.2 - 1 < b.2.Start
        omega
      · obtain ⟨e, tl, he⟩ := hhead
        rw [he] at ih3 ⊢
        rw [List.chain'_cons]
        refine ⟨?_, ih3⟩
        show q.2 - 1 + 1 = q.2
        omega
      · intro x hx
        obtain ⟨e, tl, he⟩ := hhead
        rw [he] at hx ih4
        rw [List.getLast?_cons_cons] at hx
        exact ih4 x hx

/-- When the declarations that the mapper finds in the section are the given
identifiers, `MapResourcesLineYAML` returns one span for each identifier, in
document order, that starts at the line declaring the identifier; every span
has `Start <= End`; the spans do not overlap and are ordered by `Start`; each
span ends one line before the next one starts, and the last span ends at the
last line of the section that is not blank. -/
theorem MapResourcesLineYAML_spans (text names : List String) (token : String)
    (h : ((declaredResources (resourcesSection token text)).map Prod.fst).Perm names) :
    ((MapResourcesLineYAML text names token).map Prod.fst).Perm names
      ∧ (MapResourcesLineYAML text names token).map (fun p => (p.1, p.2.Start))
        = declaredResources (resourcesSection token text)
      ∧ (∀ p ∈ MapResourcesLineYAML text names token, 1 ≤ p.2.Start ∧ p.2.Start ≤ p.2.End)
      ∧ (MapResourcesLineYAML text names token).Pairwise (fun a b => a.2.End < b.2.Start)
      ∧ (MapResourcesLineYAML text names token).Chain' (fun a b => a.2.End + 1 = b.2.Start)
      ∧ (∀ p, (MapResourcesLineYAML text names token).getLast? = some p →
          p.2.End = lastNonBlank (resourcesSection token text)) := by
  have hfil : (declaredResources (resourcesSection token text)).filter
      (fun p => decide (p.1 ∈ names)) = declaredResources (resourcesSection token text) := by
    rw [List.filter_eq_self]
    intro p hp
    have : p.1 ∈ names := h.subset (List.mem_map_of_mem Prod.fst hp)
    simp [this]
  have hsec := resourcesSection_bounds token text
  have hpw := declaredResources_pairwise _ hsec.1
  have hle : ∀ q ∈ declaredResources (resourcesSection token text),
      q.2 ≤ lastNonBlank (resourcesSection token text) := by
    intro q hq
    obtain ⟨line, hmem, hb, -⟩ := declaredResources_mem _ q hq
    exact le_lastNonBlank _ hsec.1 (q.2, line) hmem hb
  have hstarts := spansFrom_starts (lastNonBlank (resourcesSection token text))
    (declaredResources (resourcesSection token text))
  obtain ⟨h1, h2, h3, h4⟩ := spansFrom_spec (lastNonBlank (resourcesSection token text))
    (declaredResources (resourcesSection token text)) hpw hle
  unfold MapResourcesLineYAML
  rw [hfil]
  refine ⟨?_, hstarts, ?_, h2, h3, h4⟩
  · have hfst : (spansFrom (lastNonBlank (resourcesSection token text))
        (declaredResources (resourcesSection token text))).map Prod.fst
        = (declaredResources (resourcesSection token text)).map Prod.fst := by
      conv_rhs => rw [← hstarts]
      rw [List.map_map]
      rfl
    rw [hfst]
    exact h
  · intro p hp
    refine ⟨?_, h1 p hp⟩
    have hmem : (p.1, p.2.Start) ∈ declaredResources (resourcesSection token text) := by
      rw [← hstarts]
      exact List.mem_map_of_mem _ hp
    obtain ⟨line, hl, -, -⟩ := declaredResources_mem _ _ hmem
    exact hsec.2 _ hl
/-! ## Tags registered before the skip list applies to them -/

/-- C4 fails for a tag that is registered already: the tag `git_org` is among
the registered tags and the skip list is `git_*`; `IsTagSkipped` holds of the
tag, `SetTags` called with it leaves it registered, and `UpdateBlockTags` calls
its `CalculateValue`. -/
theorem skipped_tag_registered_before_is_calculated :
    (⟨[.plain "git_org" "acme"], ["git_*"]⟩ : TagGroup SampleTag).IsTagSkipped
        (goRegexp Regexp.unmodelled) (SampleTag.methods Unit) (.plain "git_org" "acme")
        = true
      ∧ ((⟨[.plain "git_org" "acme"], ["git_*"]⟩ : TagGroup SampleTag).SetTags
          (goRegexp Regexp.unmodelled) (SampleTag.methods Unit)
          [.plain "git_org" "acme"]).GetTags = [.plain "git_org" "acme"]
      ∧ calculated (((⟨[.plain "git_org" "acme"], ["git_*"]⟩ : TagGroup SampleTag).SetTags
          (goRegexp Regexp.unmodelled) (SampleTag.methods Unit)
          [.plain "git_org" "acme"]).UpdateBlockTags
          (SampleTag.methods Unit) Block.methods newVolumeBlock ()).calls
        = [.plain "git_org" "acme"] := by
  refine ⟨by decide, by decide, by decide⟩

/-- C6 fails in two ways.  The tag `foo_bar` is among the registered tags of a
group whose skip list is `foo*`: it is skipped, `SetTags` leaves it registered,
and `UpdateBlockTags` adds it to the block.  And the tag `env`, registered
under the skip list `foo*`, has a calculation that returns its value under the
key `foo_bar`: a tag of key `foo_bar` is added to the block. -/
theorem foo_bar_is_added_all_the_same :
    ((⟨[.plain "foo_bar" "v"], ["foo*"]⟩ : TagGroup SampleTag).IsTagSkipped
          (goRegexp Regexp.unmodelled) (SampleTag.methods Unit) (.plain "foo_bar" "v") = true
        ∧ ((⟨[.plain "foo_bar" "v"], ["foo*"]⟩ : TagGroup SampleTag).SetTags
            (goRegexp Regexp.unmodelled) (SampleTag.methods Unit)
            [.plain "foo_bar" "v"]).GetTags = [.plain "foo_bar" "v"]
        ∧ addedTags (((⟨[.plain "foo_bar" "v"], ["foo*"]⟩ : TagGroup SampleTag).SetTags
            (goRegexp Regexp.unmodelled) (SampleTag.methods Unit)
            [.plain "foo_bar" "v"]).UpdateBlockTags
            (SampleTag.methods Unit) Block.methods newVolumeBlock ()).calls
          = [[some (.plain "foo_bar" "v")]])
      ∧ ((registered (goRegexp Regexp.unmodelled) (SampleTag.underFooBar Unit) ["foo*"]
            [[.plain "env" "prod"]]).GetTags = [.plain "env" "prod"]
        ∧ addedTags ((registered (goRegexp Regexp.unmodelled) (SampleTag.underFooBar Unit)
            ["foo*"] [[.plain "env" "prod"]]).UpdateBlockTags
            (SampleTag.underFooBar Unit) Block.methods newVolumeBlock ()).calls
          = [[some (.plain "foo_bar" "prod")]]) := by
  refine ⟨⟨by decide, by decide, by decide⟩, by decide, by decide⟩

/-- C4, amended, at a concrete input: the group has the tag `team` registered
and the skip list `git_*`; `SetTags` with `env` and `git_org` registers `env`
only, and the skipped tag `git_org`, which was not registered before, is not
calculated. -/
theorem SetTags_registers_unskipped_witness :
    ((⟨[.plain "team" "a"], ["git_*"]⟩ : TagGroup SampleTag).SetTags
        (goRegexp Regexp.unmodelled) (SampleTag.methods Unit)
        [.plain "env" "prod", .plain "git_org" "acme"]).GetTags
        = [.plain "team" "a", .plain "env" "prod"]
      ∧ (SampleTag.plain "git_org" "acme") ∉
          calculated (((⟨[.plain "team" "a"], ["git_*"]⟩ : TagGroup SampleTag).SetTags
            (goRegexp Regexp.unmodelled) (SampleTag.methods Unit)
            [.plain "env" "prod", .plain "git_org" "acme"]).UpdateBlockTags
            (SampleTag.methods Unit) Block.methods newVolumeBlock ()).calls :=
  ⟨((SetTags_registers_unskipped (goRegexp Regexp.unmodelled) (SampleTag.methods Unit)
      Block.methods ⟨[.plain "team" "a"], ["git_*"]⟩
      [.plain "env" "prod", .plain "git_org" "acme"] newVolumeBlock ()).1).trans (by decide),
    ((SetTags_registers_unskipped (goRegexp Regexp.unmodelled) (SampleTag.methods Unit)
      Block.methods ⟨[.plain "team" "a"], ["git_*"]⟩
      [.plain "env" "prod", .plain "git_org" "acme"] newVolumeBlock ()).2.2
      (.plain "git_org" "acme") (by decide) (by decide)).2⟩

/-! ## The line range mapper on documents given by their structure -/

theorem takeWhile_replicate_append (n : Nat) (c : Char) (cs : List Char) (h : c ≠ ' ') :
    (List.replicate n ' ' ++ c :: cs).takeWhile (fun x => decide (x = ' '))
      = List.replicate n ' ' := by
  induction n with
  | zero => simp [List.takeWhile, h]
  | succ n ih => simp [List.replicate_succ, List.takeWhile, ih]

theorem dropWhile_replicate_append (n : Nat) (c : Char) (cs : List Char) (h : c ≠ ' ') :
    (List.replicate n ' ' ++ c :: cs).dropWhile (fun x => decide (x = ' ')) = c :: cs := by
  induction n with
  | zero => simp [List.dropWhile, h]
  | succ n ih => simp [List.replicate_succ, List.dropWhile, ih]

theorem startsWithText_iff (text : String) :
    startsWithText text = true ↔
      ∃ c cs, text.data = c :: cs ∧ c ≠ ' ' ∧ c ≠ '\t' ∧ c ≠ '\r' := by
  unfold startsWithText
  cases h : text.data with
  | nil => simp
  | cons c cs => simp [and_assoc]

theorem indentation_indented (n : Nat) (text : String) (h : startsWithText text = true) :
    indentation (indented n text) = n := by
  obtain ⟨c, cs, hd, hc, -, -⟩ := (startsWithText_iff text).mp h
  unfold indentation indented
  simp only [hd]
  rw [takeWhile_replicate_append n c cs hc, List.length_replicate]

theorem isBlank_indented (n : Nat) (text : String) (h : startsWithText text = true) :
    isBlank (indented n text) = false := by
  obtain ⟨c, cs, hd, hc, ht, hr⟩ := (startsWithText_iff text).mp h
  unfold isBlank indented
  simp only [hd]
  rw [← Bool.not_eq_true, List.all_eq_true]
  intro hall
  have := hall c (by simp)
  simp [hc, ht, hr] at this

theorem isBlank_blankLine (n : Nat) : isBlank (blankLine n) = true := by
  unfold isBlank blankLine
  rw [List.all_eq_true]
  intro c hc
  have : c = ' ' := List.eq_of_mem_replicate hc
  simp [this]

theorem resourceKey_of_isBlank (line : String) (h : isBlank line = true) :
    resourceKey line = none := by
  cases hk : resourceKey line with
  | none => rfl
  | some k =>
    have := resourceKey_not_blank line k hk
    rw [h] at this
    exact absurd this (by simp)

theorem resourceKey_header (n : Nat) (name rest : String) (hc : ':' ∉ name.data)
    (hs : startsWithText name = true) :
    resourceKey (indented n (name ++ ":" ++ rest)) = some name := by
  obtain ⟨c, cs, hd, hne, -, -⟩ := (startsWithText_iff name).mp hs
  have hdata : (indented n (name ++ ":" ++ rest)).data
      = List.replicate n ' ' ++ c :: (cs ++ ':' :: rest.data) := by
    simp [indented, String.data_append, hd]
  have hdrop : (indented n (name ++ ":" ++ rest)).data.dropWhile (fun x => decide (x = ' '))
      = name.data ++ ':' :: rest.data := by
    rw [hdata, dropWhile_replicate_append n c _ hne, hd]
    rfl
  have htake : (name.data ++ ':' :: rest.data).takeWhile (fun x => decide (x ≠ ':'))
      = name.data := by
    have : ∀ l : List Char, ':' ∉ l →
        (l ++ ':' :: rest.data).takeWhile (fun x => decide (x ≠ ':')) = l := by
      intro l hl
      induction l with
      | nil => simp [List.takeWhile]
      | cons a l ih =>
        have ha : a ≠ ':' := fun h => hl (h ▸ List.mem_cons_self _ _)
        simp only [List.cons_append, List.takeWhile, ha, ne_eq, not_false_eq_true,
          decide_True, List.cons.injEq, true_and]
        exact ih (fun h => hl (List.mem_cons_of_mem _ h))
    exact this name.data hc
  unfold resourceKey
  rw [hdrop, if_pos (by simp), htake]

theorem containsChars_iff (token line : List Char) :
    containsChars token line = true ↔ token <:+: line := by
  induction line with
  | nil =>
    rw [containsChars, List.infix_nil, List.isEmpty_iff]
  | cons c cs ih =>
    rw [containsChars, Bool.or_eq_true, ih, List.infix_cons_iff, List.isPrefixOf_iff_prefix]

theorem numberLines_append (n : Nat) (a b : List String) :
    numberLines n (a ++ b) = numberLines n a ++ numberLines (n + a.length) b := by
  induction a generalizing n with
  | nil => simp [numberLines]
  | cons l ls ih =>
    have e : n + 1 + ls.length = n + (ls.length + 1) := by omega
    rw [List.cons_append, numberLines, numberLines, ih, List.cons_append, List.length_cons, e]

theorem afterToken_numberLines (token tokenLine : String) (before rest : List String)
    (n : Nat) (hb : ∀ l ∈ before, ¬ token.data <:+: l.data)
    (ht : token.data <:+: tokenLine.data) :
    afterToken token (numberLines n (before ++ tokenLine :: rest))
      = some (indentation tokenLine, numberLines (n + before.length + 1) rest) := by
  induction before generalizing n with
  | nil =>
    rw [List.nil_append, numberLines, afterToken,
      if_pos ((containsChars_iff _ _).mpr ht)]
    rfl
  | cons l ls ih =>
    have hl : containsChars token.data l.data = false := by
      rw [← Bool.not_eq_true, containsChars_iff]
      exact hb l (List.mem_cons_self _ _)
    rw [List.cons_append, numberLines, afterToken]
    simp only [hl, Bool.false_eq_true, if_false]
    rw [ih (n + 1) (fun x hx => hb x (List.mem_cons_of_mem _ hx)), List.length_cons]
    have e : n + 1 + ls.length + 1 = n + (ls.length + 1) + 1 := by omega
    rw [e]
theorem takeWhile_numberLines (q : String → Bool) (sec after : List String) (k : Nat)
    (hs : ∀ l ∈ sec, q l = true)
    (ha : after = [] ∨ ∃ a tail, after = a :: tail ∧ q a = false) :
    (numberLines k (sec ++ after)).takeWhile (fun p => q p.2) = numberLines k sec := by
  induction sec generalizing k with
  | nil =>
    rcases ha with rfl | ⟨a, tail, rfl, hq⟩
    · rfl
    · simp [numberLines, hq]
  | cons l ls ih =>
    rw [List.cons_append, numberLines, numberLines, List.takeWhile_cons]
    simp only [hs l (List.mem_cons_self _ _), if_true]
    rw [ih (k + 1) (fun x hx => hs x (List.mem_cons_of_mem _ hx))]

theorem mem_renderResources (r : Nat) (rs : List ResourceDecl) (l : String)
    (h : l ∈ renderResources r rs) :
    ∃ res ∈ rs, l = indented r (res.name ++ ":" ++ res.rest)
      ∨ ∃ b ∈ res.body, l = b.render r := by
  induction rs with
  | nil => simp [renderResources] at h
  | cons res more ih =>
    rw [renderResources, List.mem_append, List.mem_cons, List.mem_map] at h
    rcases h with (h | ⟨b, hb, h⟩) | h
    · exact ⟨res, List.mem_cons_self _ _, Or.inl h⟩
    · exact ⟨res, List.mem_cons_self _ _, Or.inr ⟨b, hb, h.symm⟩⟩
    · obtain ⟨res', hres', h'⟩ := ih h
      exact ⟨res', List.mem_cons_of_mem _ hres', h'⟩

theorem startsWithText_header (name rest : String) (h : startsWithText name = true) :
    startsWithText (name ++ ":" ++ rest) = true := by
  obtain ⟨c, cs, hd, h1, h2, h3⟩ := (startsWithText_iff name).mp h
  rw [startsWithText_iff]
  exact ⟨c, cs ++ ':' :: rest.data, by simp [String.data_append, hd], h1, h2, h3⟩

/-- In a well-formed document the resources section is the blank lines and the
lines of the resources that follow the resources line. -/
theorem resourcesSection_render (token : String) (tpl : Template)
    (hw : tpl.WellFormed token) :
    resourcesSection token tpl.render
      = numberLines (tpl.before.length + 2)
          (tpl.leading.map blankLine ++ renderResources tpl.keyIndent tpl.resources) := by
  obtain ⟨hb, ht, hts, hlt, hname, hbody', hafter⟩ := hw
  have hbody : ∀ res ∈ tpl.resources, ∀ d text, BodyLine.nested d text ∈ res.body →
      startsWithText text = true := fun res hres d text hm => hbody' res hres _ hm
  have htok : token.data <:+: (indented tpl.tokenIndent tpl.tokenText).data :=
    ht.trans (List.suffix_append _ _).isInfix
  have hind : indentation (indented tpl.tokenIndent tpl.tokenText) = tpl.tokenIndent :=
    indentation_indented _ _ hts
  unfold resourcesSection Template.render
  rw [afterToken_numberLines token _ tpl.before _ 1 hb htok, hind]
  simp only
  have e : 1 + tpl.before.length + 1 = tpl.before.length + 2 := by omega
  rw [e]
  apply takeWhile_numberLines
    (fun l => isBlank l || decide (tpl.tokenIndent < indentation l))
  · intro l hl
    rw [List.mem_append, List.mem_map] at hl
    rcases hl with ⟨n, -, rfl⟩ | hl
    · simp [isBlank_blankLine]
    · obtain ⟨res, hres, h | ⟨b, hbm, h⟩⟩ := mem_renderResources _ _ l hl
      · rw [h, indentation_indented _ _ (startsWithText_header _ _ (hname res hres).2)]
        simp [hlt]
      · rw [h]
        cases b with
        | blank n => simp [BodyLine.render, isBlank_blankLine]
        | nested d text =>
          rw [BodyLine.render, indentation_indented _ _ (hbody res hres d text hbm)]
          have : tpl.tokenIndent < tpl.keyIndent + 1 + d := by omega
          simp [this]
  · rcases hafter with h | ⟨j, text, tail, h, hj, hs⟩
    · exact Or.inl h
    · refine Or.inr ⟨_, tail, h, ?_⟩
      rw [isBlank_indented _ _ hs, indentation_indented _ _ hs]
      have : ¬ tpl.tokenIndent < j := by omega
      simp [this]
theorem mem_numberLines (k : Nat) (ls : List String) (p : Nat × String)
    (h : p ∈ numberLines k ls) : p.2 ∈ ls := by
  induction ls generalizing k with
  | nil => simp [numberLines] at h
  | cons l ls ih =>
    rw [numberLines, List.mem_cons] at h
    rcases h with rfl | h
    · exact List.mem_cons_self _ _
    · exact List.mem_cons_of_mem _ (ih (k + 1) h)

theorem filterMap_numberLines_nil {β : Type} (g : Nat × String → Option β) (k : Nat)
    (ls : List String) (h : ∀ l ∈ ls, ∀ i, g (i, l) = none) :
    (numberLines k ls).filterMap g = [] := by
  rw [List.filterMap_eq_nil_iff]
  intro p hp
  exact h p.2 (mem_numberLines k ls p hp) p.1

theorem declared_body (r : Nat) (body : List BodyLine)
    (hb : ∀ d text, BodyLine.nested d text ∈ body → startsWithText text = true) :
    ∀ l ∈ body.map (BodyLine.render r), ∀ i : Nat,
      (if indentation l = r then (resourceKey l).map (fun key => (key, i)) else none)
        = none := by
  intro l hl i
  obtain ⟨b, hbm, rfl⟩ := List.mem_map.mp hl
  cases b with
  | blank n =>
    rw [BodyLine.render, resourceKey_of_isBlank _ (isBlank_blankLine n)]
    simp
  | nested d text =>
    rw [BodyLine.render, indentation_indented _ _ (hb d text hbm)]
    have : ¬ r + 1 + d = r := by omega
    rw [if_neg this]

theorem declared_blank (r : Nat) (ns : List Nat) :
    ∀ l ∈ ns.map blankLine, ∀ i : Nat,
      (if indentation l = r then (resourceKey l).map (fun key => (key, i)) else none)
        = none := by
  intro l hl i
  obtain ⟨n, -, rfl⟩ := List.mem_map.mp hl
  rw [resourceKey_of_isBlank _ (isBlank_blankLine n)]
  simp

/-- The declarations that the mapper finds in the lines of the resources are
the declaring lines of the resources, at the line numbers that the structure
gives. -/
theorem declared_renderResources (r : Nat) (rs : List ResourceDecl) (k : Nat)
    (hname : ∀ res ∈ rs, ':' ∉ res.name.data ∧ startsWithText res.name = true)
    (hbody : ∀ res ∈ rs, ∀ d text, BodyLine.nested d text ∈ res.body →
      startsWithText text = true) :
    (numberLines k (renderResources r rs)).filterMap
        (fun p => if indentation p.2 = r then (resourceKey p.2).map (fun key => (key, p.1))
          else none)
      = (expectedSpans k rs).map (fun p => (p.1, p.2.Start)) := by
  induction rs generalizing k with
  | nil => rfl
  | cons res more ih =>
    have hn := hname res (List.mem_cons_self _ _)
    have hhead : (if indentation (indented r (res.name ++ ":" ++ res.rest)) = r then
        (resourceKey (indented r (res.name ++ ":" ++ res.rest))).map (fun key => (key, k))
        else none) = some (res.name, k) := by
      rw [indentation_indented _ _ (startsWithText_header _ _ hn.2), if_pos rfl,
        resourceKey_header r _ _ hn.1 hn.2]
      rfl
    have ih' := ih (k + 1 + res.body.length)
      (fun x hx => hname x (List.mem_cons_of_mem _ hx))
      (fun x hx => hbody x (List.mem_cons_of_mem _ hx))
    rw [renderResources, List.cons_append, numberLines, numberLines_append,
      List.filterMap_cons]
    simp only [hhead]
    rw [List.filterMap_append,
      filterMap_numberLines_nil _ _ _
        (declared_body r res.body (hbody res (List.mem_cons_self _ _))),
      List.nil_append, List.length_map, ih']
    cases more with
    | nil => rfl
    | cons next more' =>
      have e : k + 1 + res.body.length = k + res.body.length + 1 := by omega
      rw [e]
      rfl

theorem find_nonblank_section (r k : Nat) (ns : List Nat) (res : ResourceDecl)
    (tail : List String) (hs : startsWithText res.name = true) :
    (numberLines k (ns.map blankLine ++ indented r (res.name ++ ":" ++ res.rest) :: tail)).find?
        (fun p => !isBlank p.2)
      = some (k + ns.length, indented r (res.name ++ ":" ++ res.rest)) := by
  induction ns generalizing k with
  | nil =>
    rw [List.map_nil, List.nil_append, numberLines, List.find?_cons_of_pos]
    · rfl
    · simp [isBlank_indented _ _ (startsWithText_header _ _ hs)]
  | cons n ns ih =>
    rw [List.map_cons, List.cons_append, numberLines, List.find?_cons_of_neg, ih (k + 1),
      List.length_cons]
    · have e : k + 1 + ns.length = k + (ns.length + 1) := by omega
      rw [e]
    · simp [isBlank_blankLine]

/-- In a well-formed document the mapper finds the declarations of the
resources of the structure, at their line numbers. -/
theorem declaredResources_render (token : String) (tpl : Template)
    (hw : tpl.WellFormed token) :
    declaredResources (resourcesSection token tpl.render)
      = (expectedSpans (tpl.before.length + tpl.leading.length + 2) tpl.resources).map
          (fun p => (p.1, p.2.Start)) := by
  rw [resourcesSection_render token tpl hw]
  obtain ⟨-, -, -, -, hname, hbody', -⟩ := hw
  have hbody : ∀ res ∈ tpl.resources, ∀ d text, BodyLine.nested d text ∈ res.body →
      startsWithText text = true := fun res hres d text hm => hbody' res hres _ hm
  unfold declaredResources
  cases hrs : tpl.resources with
  | nil =>
    have hnone : resourceIndent (numberLines (tpl.before.length + 2)
        (tpl.leading.map blankLine ++ renderResources tpl.keyIndent [])) = none := by
      unfold resourceIndent
      rw [renderResources, List.append_nil]
      have : (numberLines (tpl.before.length + 2) (tpl.leading.map blankLine)).find?
          (fun p => !isBlank p.2) = none := by
        rw [List.find?_eq_none]
        intro p hp
        obtain ⟨n, -, hn⟩ := List.mem_map.mp (mem_numberLines _ _ p hp)
        simp [← hn, isBlank_blankLine]
      rw [this]
      rfl
    rw [hnone]
    rfl
  | cons res more =>
    have hsome : resourceIndent (numberLines (tpl.before.length + 2)
        (tpl.leading.map blankLine ++ renderResources tpl.keyIndent (res :: more)))
        = some tpl.keyIndent := by
      unfold resourceIndent
      rw [renderResources, List.cons_append,
        find_nonblank_section _ _ _ res _
          (hname res (by rw [hrs]; exact List.mem_cons_self _ _)).2]
      simp only [Option.map_some']
      rw [indentation_indented _ _ (startsWithText_header _ _
        (hname res (by rw [hrs]; exact List.mem_cons_self _ _)).2)]
    rw [hsome]
    simp only
    rw [numberLines_append, List.filterMap_append,
      filterMap_numberLines_nil _ _ _ (declared_blank tpl.keyIndent tpl.leading),
      List.nil_append, List.length_map,
      declared_renderResources tpl.keyIndent (res :: more) _
        (fun x hx => hname x (by rw [hrs]; exact hx))
        (fun x hx => hbody x (by rw [hrs]; exact hx))]
    have e : tpl.before.length + 2 + tpl.leading.length
        = tpl.before.length + tpl.leading.length + 2 := by omega
    rw [e]
theorem filter_nonblank_cons_blank (i : Nat) (l : String) (xs : List (Nat × String))
    (h : isBlank l = true) :
    ((i, l) :: xs).filter (fun p => !isBlank p.2) = xs.filter (fun p => !isBlank p.2) := by
  simp [List.filter_cons, h]

theorem filter_nonblank_cons_text (i : Nat) (l : String) (xs : List (Nat × String))
    (h : isBlank l = false) :
    ((i, l) :: xs).filter (fun p => !isBlank p.2)
      = (i, l) :: xs.filter (fun p => !isBlank p.2) := by
  simp [List.filter_cons, h]

theorem dropTrailingBlank_cons_of_nil (b : BodyLine) (bs : List BodyLine)
    (h : dropTrailingBlank bs = []) :
    dropTrailingBlank (b :: bs)
      = match b with
        | .blank _ => []
        | .nested d text => [.nested d text] := by
  simp only [dropTrailingBlank, h]

theorem dropTrailingBlank_cons_of_ne_nil (b : BodyLine) (bs : List BodyLine)
    (h : dropTrailingBlank bs ≠ []) :
    dropTrailingBlank (b :: bs) = b :: dropTrailingBlank bs := by
  cases hd : dropTrailingBlank bs with
  | nil => exact absurd hd h
  | cons l ls => simp only [dropTrailingBlank, hd]

/-- The last line of a resource that is not blank, counted from its declaring
line `k`: the number of its lines without the blank lines at their end. -/
theorem last_nonblank_body (r : Nat) (body : List BodyLine) (k : Nat)
    (hb : ∀ d text, BodyLine.nested d text ∈ body → startsWithText text = true) :
    (((numberLines (k + 1) (body.map (BodyLine.render r))).filter
        (fun p => !isBlank p.2)).getLast?).map Prod.fst
      = if dropTrailingBlank body = [] then none
        else some (k + (dropTrailingBlank body).length) := by
  induction body generalizing k with
  | nil => rfl
  | cons b bs ih =>
    have ih' := ih (k + 1) (fun d text h => hb d text (List.mem_cons_of_mem _ h))
    rw [List.map_cons, numberLines]
    cases b with
    | blank n =>
      rw [filter_nonblank_cons_blank _ _ _ (by rw [BodyLine.render]; exact isBlank_blankLine n),
        ih']
      by_cases hd : dropTrailingBlank bs = []
      · rw [if_pos hd, dropTrailingBlank_cons_of_nil _ _ hd]
        rfl
      · rw [if_neg hd, dropTrailingBlank_cons_of_ne_nil _ _ hd, if_neg (by simp),
          List.length_cons]
        congr 1
        omega
    | nested d text =>
      rw [filter_nonblank_cons_text _ _ _ (by
          rw [BodyLine.render]
          exact isBlank_indented _ _ (hb d text (List.mem_cons_self _ _))),
        List.getLast?_cons]
      by_cases hd : dropTrailingBlank bs = []
      · rw [if_pos hd] at ih'
        rw [Option.map_eq_none'] at ih'
        rw [ih', dropTrailingBlank_cons_of_nil _ _ hd]
        rfl
      · rw [if_neg hd] at ih'
        obtain ⟨v, hv, hv1⟩ := Option.map_eq_some'.mp ih'
        rw [hv, dropTrailingBlank_cons_of_ne_nil _ _ hd, if_neg (by simp), List.length_cons]
        simp only [Option.getD_some, Option.map_some', hv1]
        congr 1
        omega

theorem expectedSpans_ne_nil (k : Nat) (res : ResourceDecl) (more : List ResourceDecl) :
    ∃ x xs, expectedSpans k (res :: more) = x :: xs := by
  cases more with
  | nil => exact ⟨_, _, rfl⟩
  | cons next more' => exact ⟨_, _, rfl⟩

/-- The last line of the resources that is not blank is the end of the last
span that the structure gives. -/
theorem last_nonblank_resources (r : Nat) (rs : List ResourceDecl) (k : Nat)
    (hname : ∀ res ∈ rs, startsWithText res.name = true)
    (hbody : ∀ res ∈ rs, ∀ d text, BodyLine.nested d text ∈ res.body →
      startsWithText text = true)
    (hrs : rs ≠ []) :
    (((numberLines k (renderResources r rs)).filter (fun p => !isBlank p.2)).getLast?).map
        Prod.fst
      = ((expectedSpans k rs).getLast?).map (fun p => p.2.End) := by
  induction rs generalizing k with
  | nil => exact absurd rfl hrs
  | cons res more ih =>
    have hhead : isBlank (indented r (res.name ++ ":" ++ res.rest)) = false :=
      isBlank_indented _ _ (startsWithText_header _ _ (hname res (List.mem_cons_self _ _)))
    have hb := last_nonblank_body r res.body k (hbody res (List.mem_cons_self _ _))
    rw [renderResources, List.cons_append, numberLines, numberLines_append,
      filter_nonblank_cons_text _ _ _ hhead, List.filter_append, List.length_map]
    cases more with
    | nil =>
      rw [renderResources, numberLines, List.filter_nil, List.append_nil, List.getLast?_cons]
      by_cases hd : dropTrailingBlank res.body = []
      · rw [if_pos hd, Option.map_eq_none'] at hb
        rw [hb, expectedSpans, hd]
        rfl
      · rw [if_neg hd] at hb
        obtain ⟨v, hv, hv1⟩ := Option.map_eq_some'.mp hb
        rw [hv, expectedSpans]
        simp only [Option.getD_some, Option.map_some', hv1, List.getLast?_singleton]
    | cons next more' =>
      have ih' := ih (k + 1 + res.body.length)
        (fun x hx => hname x (List.mem_cons_of_mem _ hx))
        (fun x hx => hbody x (List.mem_cons_of_mem _ hx)) (by simp)
      obtain ⟨x, xs, hx⟩ := expectedSpans_ne_nil (k + 1 + res.body.length) next more'
      rw [hx] at ih'
      have hsome : ∃ v, ((numberLines (k + 1 + res.body.length)
          (renderResources r (next :: more'))).filter (fun p => !isBlank p.2)).getLast?
          = some v := by
        cases hv : ((numberLines (k + 1 + res.body.length)
          (renderResources r (next :: more'))).filter (fun p => !isBlank p.2)).getLast? with
        | none =>
          rw [hv, List.getLast?_cons] at ih'
          simp at ih'
        | some v => exact ⟨v, rfl⟩
      obtain ⟨v, hv⟩ := hsome
      have hne : (numberLines (k + 1 + res.body.length)
          (renderResources r (next :: more'))).filter (fun p => !isBlank p.2) ≠ [] := by
        intro h
        rw [h] at hv
        simp at hv
      obtain ⟨y, ys, hy⟩ := List.exists_cons_of_ne_nil hne
      have e : k + res.body.length + 1 = k + 1 + res.body.length := by omega
      rw [expectedSpans, e, hx, List.getLast?_cons_cons, ← ih', hy]
      rw [← List.cons_append, List.getLast?_append, List.getLast?_cons (a := y)]
      simp
theorem lastNonBlank_render (token : String) (tpl : Template) (hw : tpl.WellFormed token)
    (p : String × Lines)
    (hp : (expectedSpans (tpl.before.length + tpl.leading.length + 2)
      tpl.resources).getLast? = some p) :
    lastNonBlank (resourcesSection token tpl.render) = p.2.End := by
  rw [resourcesSection_render token tpl hw]
  obtain ⟨-, -, -, -, hname, hbody', -⟩ := hw
  have hbody : ∀ res ∈ tpl.resources, ∀ d text, BodyLine.nested d text ∈ res.body →
      startsWithText text = true := fun res hres d text hm => hbody' res hres _ hm
  have hrs : tpl.resources ≠ [] := by
    intro h
    rw [h] at hp
    simp [expectedSpans] at hp
  have hblank : (numberLines (tpl.before.length + 2) (tpl.leading.map blankLine)).filter
      (fun p => !isBlank p.2) = [] := by
    rw [List.filter_eq_nil_iff]
    intro q hq
    obtain ⟨n, -, hn⟩ := List.mem_map.mp (mem_numberLines _ _ q hq)
    simp [← hn, isBlank_blankLine]
  have hlast := last_nonblank_resources tpl.keyIndent tpl.resources
    (tpl.before.length + tpl.leading.length + 2)
    (fun res hres => (hname res hres).2) hbody hrs
  have e : tpl.before.length + 2 + tpl.leading.length
      = tpl.before.length + tpl.leading.length + 2 := by omega
  unfold lastNonBlank
  rw [numberLines_append, List.filter_append, hblank, List.nil_append, List.length_map, e]
  rw [hp] at hlast
  obtain ⟨v, hv, hv1⟩ := Option.map_eq_some'.mp hlast
  rw [hv]
  exact hv1

/-- The spans computed from the declaring lines and the last line that is not
blank are the spans that the structure gives. -/
theorem spansFrom_expectedSpans (last : Nat) (rs : List ResourceDecl) (k : Nat)
    (h : ∀ p, (expectedSpans k rs).getLast? = some p → p.2.End = last) :
    spansFrom last ((expectedSpans k rs).map (fun p => (p.1, p.2.Start)))
      = expectedSpans k rs := by
  induction rs generalizing k with
  | nil => rfl
  | cons res more ih =>
    cases more with
    | nil =>
      have hl : k + (dropTrailingBlank res.body).length = last :=
        h (res.name, ⟨k, k + (dropTrailingBlank res.body).length⟩) rfl
      rw [expectedSpans, List.map_cons, List.map_nil, spansFrom, hl]
    | cons next more' =>
      obtain ⟨x, xs, hx⟩ := expectedSpans_ne_nil (k + res.body.length + 1) next more'
      have hstart : x.2.Start = k + res.body.length + 1 := by
        cases more' with
        | nil =>
          rw [expectedSpans] at hx
          simp only [List.cons.injEq] at hx
          rw [← hx.1]
        | cons z zs =>
          rw [expectedSpans] at hx
          simp only [List.cons.injEq] at hx
          rw [← hx.1]
      have ih' := ih (k + res.body.length + 1) (by
        intro p hp
        apply h p
        rw [expectedSpans, hx, List.getLast?_cons_cons, ← hx]
        exact hp)
      rw [expectedSpans, List.map_cons]
      rw [hx] at ih' ⊢
      rw [List.map_cons] at ih' ⊢
      rw [spansFrom, ih']
      simp only [hstart]
      have e : k + res.body.length + 1 - 1 = k + res.body.length := by omega
      rw [e]

/-- C13, amended: for a document with a resources section as `WellFormed`
describes it, and the list of the identifiers of its resources,
`MapResourcesLineYAML` returns the spans that the structure of the document
gives: one span for each identifier, in document order, from the declaring line
of the resource to the line before the next declaring line, and for the last
resource to its last line that is not blank.  Every span has `Start <= End`,
the spans do not overlap and are ordered by `Start`, and each span ends one line
before the next one starts. -/
theorem MapResourcesLineYAML_of_template (token : String) (tpl : Template)
    (names : List String) (hw : tpl.WellFormed token)
    (hn : (tpl.resources.map ResourceDecl.name).Perm names) :
    MapResourcesLineYAML tpl.render names token
        = expectedSpans (tpl.before.length + tpl.leading.length + 2) tpl.resources
      ∧ ((MapResourcesLineYAML tpl.render names token).map Prod.fst).Perm names
      ∧ (MapResourcesLineYAML tpl.render names token).map Prod.fst
        = tpl.resources.map ResourceDecl.name
      ∧ (∀ p ∈ MapResourcesLineYAML tpl.render names token,
          1 ≤ p.2.Start ∧ p.2.Start ≤ p.2.End)
      ∧ (MapResourcesLineYAML tpl.render names token).Pairwise
          (fun a b => a.2.End < b.2.Start)
      ∧ (MapResourcesLineYAML tpl.render names token).Chain'
          (fun a b => a.2.End + 1 = b.2.Start) := by
  have hdecl := declaredResources_render token tpl hw
  have hfst : ∀ (k : Nat) (rs : List ResourceDecl),
      (expectedSpans k rs).map Prod.fst = rs.map ResourceDecl.name := by
    intro k rs
    induction rs generalizing k with
    | nil => rfl
    | cons res more ih =>
      cases more with
      | nil => rfl
      | cons next more' =>
        rw [expectedSpans, List.map_cons, ih]
        rfl
  have hkeys : (declaredResources (resourcesSection token tpl.render)).map Prod.fst
      = tpl.resources.map ResourceDecl.name := by
    rw [hdecl, List.map_map, ← hfst (tpl.before.length + tpl.leading.length + 2)]
    rfl
  have hperm : ((declaredResources (resourcesSection token tpl.render)).map Prod.fst).Perm
      names := by
    rw [hkeys]
    exact hn
  have heq : MapResourcesLineYAML tpl.render names token
      = expectedSpans (tpl.before.length + tpl.leading.length + 2) tpl.resources := by
    have hfil : (declaredResources (resourcesSection token tpl.render)).filter
        (fun p => decide (p.1 ∈ names))
        = declaredResources (resourcesSection token tpl.render) := by
      rw [List.filter_eq_self]
      intro p hp
      have : p.1 ∈ names := hperm.subset (List.mem_map_of_mem Prod.fst hp)
      simp [this]
    unfold MapResourcesLineYAML
    rw [hfil, hdecl]
    exact spansFrom_expectedSpans _ _ _
      (fun p hp => (lastNonBlank_render token tpl hw p hp).symm)
  obtain ⟨h1, -, h3, h4, h5, -⟩ := MapResourcesLineYAML_spans tpl.render names token hperm
  refine ⟨heq, h1, ?_, h3, h4, h5⟩
  rw [heq, hfst]
theorem fourResources_wellFormed : fourResources.WellFormed "Resources" :=
  ⟨by simp [fourResources], ⟨[], [':'], rfl⟩, by decide, by decide, by decide, by decide,
    Or.inl rfl⟩

theorem singleResource_wellFormed : singleResource.WellFormed "Resources" :=
  ⟨by
      intro l hl h
      have hc := (containsChars_iff _ _).mpr h
      have hl' : l = "AWSTemplateFormatVersion: \"2010-09-09\"" := by
        simpa [singleResource] using hl
      rw [hl'] at hc
      revert hc
      decide,
    ⟨[], [':'], rfl⟩, by decide, by decide, by decide, by decide,
    Or.inr ⟨0, "Outputs:", ["  VolumeId:", "    Value: !Ref NewVolume"], by decide,
      by decide, by decide⟩⟩

/-- C13 fails for two documents with resources under the start token.  In the
first a line before the resources line contains the token, the mapper takes
that line for the resources line and returns no span for `NewVolume`.  In the
second a comment in the first column stands between two resources, the mapper
ends the section there and returns no span for `VolumeB`. -/
theorem mapper_loses_resources :
    MapResourcesLineYAML describedTemplate ["NewVolume"] "Resources" = []
      ∧ MapResourcesLineYAML commentedTemplate ["VolumeA", "VolumeB"] "Resources"
        = [("VolumeA", ⟨2, 3⟩)] := by
  refine ⟨by decide, by decide⟩

/-- C13, amended, at concrete inputs: the two templates are well formed and
are the documents `fourResourcesTemplate` and `singleResourceTemplate`; the
mapper returns the spans 2 to 5, 6 to 15, 16 to 20 and 21 to 31 for the first
and 3 to 13 for `NewVolume` in the second. -/
theorem MapResourcesLineYAML_of_template_witness :
    (fourResources.WellFormed "Resources"
        ∧ (fourResources.resources.map ResourceDecl.name).Perm
            ["EC2InstanceResource0", "EC2InstanceResource1", "EC2LaunchTemplateResource0",
              "EC2LaunchTemplateResource1"]
        ∧ fourResources.render = fourResourcesTemplate
        ∧ MapResourcesLineYAML fourResources.render
            ["EC2InstanceResource0", "EC2InstanceResource1", "EC2LaunchTemplateResource0",
              "EC2LaunchTemplateResource1"] "Resources"
          = [("EC2InstanceResource0", ⟨2, 5⟩), ("EC2InstanceResource1", ⟨6, 15⟩),
              ("EC2LaunchTemplateResource0", ⟨16, 20⟩),
              ("EC2LaunchTemplateResource1", ⟨21, 31⟩)])
      ∧ (singleResource.WellFormed "Resources"
        ∧ (singleResource.resources.map ResourceDecl.name).Perm ["NewVolume"]
        ∧ singleResource.render = singleResourceTemplate
        ∧ MapResourcesLineYAML singleResource.render ["NewVolume"] "Resources"
          = [("NewVolume", ⟨3, 13⟩)]) :=
  ⟨⟨fourResources_wellFormed, List.Perm.refl _, by decide,
      ((MapResourcesLineYAML_of_template "Resources" fourResources
        ["EC2InstanceResource0", "EC2InstanceResource1", "EC2LaunchTemplateResource0",
          "EC2LaunchTemplateResource1"] fourResources_wellFormed (List.Perm.refl _)).1).trans
        (by decide)⟩,
    ⟨singleResource_wellFormed, List.Perm.refl _, by decide,
      ((MapResourcesLineYAML_of_template "Resources" singleResource ["NewVolume"]
        singleResource_wellFormed (List.Perm.refl _)).1).trans (by decide)⟩⟩

end Yor
